import Mathlib

/-!
Verification of the rathernet acoustic link layer.

This file shallowly embeds the two core subsystems of the repository:

* the acoustic framing layer (src/rather/stream.rs): frame serialization
  (`AtherOutputStream::write`, `encode_packet`) and the sample-level decoder
  (`decode_packet`), and

* the CSMA/CA MAC layer (src/racsma/socket.rs): the socket daemon's receive,
  timer and enqueue phases, the writer facade (`encode_packet`,
  `AcsmaSocketWriter::write`), the reader facade (`AcsmaSocketReader::read`),
  back-off generation, and the ather input task state machine.

The signal primitives (rather/signal.rs), the symbol and preamble
constructors (rather/frame.rs), the MAC bit-level frame codec
(racsma/frame.rs) and the constant table (racsma/builtin.rs) are not part of
the sources; where needed they are modelled from the specification, and each
such definition carries a doc comment starting with `Modelled from the
spec:`.  Machine integers are modelled as `Nat`/`Int`; audio samples are
modelled as integers (phase-shift keying reduces to sign under the spec's
dot-product contract); real time is an oracle input.
-/

namespace Rathernet

/-! ## Ather layer: constants (src/rather/stream.rs lines 34-38) -/

/-- Warmup length in symbol durations (stream.rs line 34). -/
def WARMUP_LEN : Nat := 8

/-- Preamble length in symbol durations (stream.rs line 35). -/
def PREAMBLE_LEN : Nat := 48

/-- Length-field width in symbols (stream.rs line 36). -/
def LENGTH_LEN : Nat := 7

/-- Maximum payload bits per audio frame, `(1 << LENGTH_LEN) - 1` (stream.rs line 37). -/
def PAYLOAD_LEN : Nat := (1 <<< LENGTH_LEN) - 1

/-- Correlation threshold 0.15 (stream.rs line 38), as an exact rational. -/
def corrThreshold : Rat := 3 / 20

/-! ## Ather layer: symbols and sample vectors

Modelled from the spec: rather/frame.rs (symbols, preamble, warmup) is not in
the sources.  Per spec section 4.2 the two symbols are BPSK waveforms 180
degrees out of phase, so `S1` is the pointwise negation of `S0`; the spec's
dot-product contract (section 4.1) says only the sign of the correlation with
`S0` matters.  We therefore model one symbol duration of `S0` as `L` samples
of value `1` and of `S1` as `L` samples of value `-1`, where `L` is the
symbol length `sample_rate / bit_rate`.  The preamble is a chirp (spec
section 3); we model it as a fixed `48 * L`-sample vector whose first sample
has the distinguished amplitude `3` (a chirp is not constant-amplitude per
sample after band-limiting, which is what the synchronizer exploits).  The
warmup primes the hardware; we model it as `8 * L` unit samples. -/

/-- Symbol for bit 0: `L` samples of amplitude 1. -/
def s0 (L : Nat) : List Int := List.replicate L 1

/-- Symbol for bit 1: the 180-degree phase shift of `s0`. -/
def s1 (L : Nat) : List Int := List.replicate L (-1)

/-- Samples of one bit. -/
def encodeBit (L : Nat) (b : Bool) : List Int := if b then s1 L else s0 L

/-- Samples of a bit string: concatenation of the chosen symbol per bit
(stream.rs lines 172-184, `AtherEncoding for BitSlice`). -/
def encodeBits (L : Nat) (bits : List Bool) : List Int :=
  (bits.map (encodeBit L)).flatten

/-- Modelled from the spec: the preamble chirp, `48 * L` samples, with a
distinguished leading amplitude. -/
def preamble (L : Nat) : List Int := 3 :: List.replicate (PREAMBLE_LEN * L - 1) 1

/-- Modelled from the spec: the warmup chirp, `8 * L` unit samples. -/
def warmupSamples (L : Nat) : List Int := List.replicate (WARMUP_LEN * L) 1

/-- Low `k` bits of `n`, least significant first.  This is
`n.view_bits::<Lsb0>()[..k]` from stream.rs lines 157-169
(`AtherEncoding for usize`). -/
def bitsLE : Nat → Nat → List Bool
  | 0, _ => []
  | k + 1, n => (n % 2 == 1) :: bitsLE k (n / 2)

/-- The 7-symbol length field of a frame: `chunk.len().encode(symbols)[..LENGTH_LEN]`
(stream.rs line 131). -/
def lengthField (L : Nat) (n : Nat) : List Int := encodeBits L (bitsLE LENGTH_LEN n)

/-- One physical audio frame: header samples (preamble or warmup, then the
length symbols) and body samples (payload symbols).  `Frame::new(config,
Header::new(pre, length), Body::new(payload))` from rather/frame.rs; its
sample stream is the concatenation of header and body. -/
structure AtherFrame where
  header : List Int
  body : List Int
  deriving Repr, DecidableEq

/-- Sample stream of a frame (the `Into<AudioSamples<f32>>` conversion). -/
def AtherFrame.samples (f : AtherFrame) : List Int := f.header ++ f.body

/-- The warmup frame `create_warmup` (stream.rs lines 116-125): warmup chirp
plus the 64 symbols of `0usize.encode(symbols)`, empty body. -/
def create_warmup (L : Nat) : AtherFrame :=
  ⟨warmupSamples L ++ encodeBits L (bitsLE 64 0), []⟩

/-- A data audio frame for one chunk: preamble, 7-symbol length field, payload
symbols (stream.rs lines 129-137). -/
def dataFrameAther (L : Nat) (chunk : List Bool) : AtherFrame :=
  ⟨preamble L ++ lengthField L chunk.length, encodeBits L chunk⟩

/-- Auxiliary chunker with chunk size `m + 1` (structural recursion). -/
def chunksAux (m : Nat) : List α → List (List α)
  | [] => []
  | a :: l => ((a :: l).take (m + 1)) :: chunksAux m ((a :: l).drop (m + 1))
termination_by l => l.length
decreasing_by
  simp only [List.length_drop, List.length_cons]
  omega

/-- `slice.chunks(n)`: splits a list into consecutive chunks of `n` elements,
the last chunk possibly shorter; the empty list has no chunks. -/
def chunks (n : Nat) (l : List α) : List (List α) := chunksAux (n - 1) l

/-- The ather `encode_packet` (stream.rs lines 127-151): one frame per
`PAYLOAD_LEN`-bit chunk, plus a trailing empty frame when the bit count is a
multiple of `PAYLOAD_LEN` (including zero). -/
def encode_packet_ather (L : Nat) (bits : List Bool) : List AtherFrame :=
  let frames := (chunks PAYLOAD_LEN bits).map (dataFrameAther L)
  if bits.length % PAYLOAD_LEN = 0 then frames ++ [dataFrameAther L []] else frames

/-- The frames emitted by `AtherOutputStream::write` (stream.rs lines 78-92):
a single warmup frame, then the packet frames. -/
def writeFrames (L : Nat) (bits : List Bool) : List AtherFrame :=
  create_warmup L :: encode_packet_ather L bits

/-- The contiguous sample track written to the audio sink by
`AtherOutputStream::write`: the concatenation of all frame samples. -/
def track (L : Nat) (bits : List Bool) : List Int :=
  ((writeFrames L bits).map AtherFrame.samples).flatten

/-! ## Signal primitives

Modelled from the spec: rather/signal.rs is not in the sources.  Section 4.1:
`dot_product(a, b)` is the standard inner product with the length of `a`
governing; `synchronize(preamble, samples)` slides the preamble across the
samples and returns the index of maximum normalized cross-correlation
together with its value, or index `-1` when the buffer is shorter than the
preamble; `band_pass` suppresses only out-of-band energy, and the loopback
model carries only in-band energy, so it is the identity here.  To keep the
correlation value exact over `Rat` we return the signed square of the
normalized cross-correlation, a strictly monotone transform of it (it
preserves the argmax, and the threshold test at the noiseless operating point,
where the peak is 1). -/

/-- Standard inner product; the length of the first argument governs. -/
def dot_product (a b : List Int) : Int := (List.zipWith (· * ·) a b).sum

/-- Modelled from the spec: in-place band-pass filter; identity on the
in-band-only loopback model. -/
def band_pass (samples : List Int) : List Int := samples

/-- Signed squared normalized cross-correlation of a window with the
preamble. -/
def corrVal (p w : List Int) : Rat :=
  let d := dot_product p w
  ((d * (d.natAbs : Int) : Int) : Rat) / (((dot_product w w) * (dot_product p p) : Int) : Rat)

/-- Modelled from the spec: `synchronize(preamble, samples)`. Returns `-1`
when the buffer is too short, else the first index attaining the maximal
correlation, with that correlation value. -/
def synchronize (p samples : List Int) : Int × Rat :=
  if samples.length < p.length then (-1, 0)
  else
    (List.range (samples.length - p.length + 1)).foldl
      (fun best i =>
        if best.2 < corrVal p ((samples.drop i).take p.length) then
          ((i : Int), corrVal p ((samples.drop i).take p.length))
        else best)
      (-1, -2)

/-! ## Ather decoder (stream.rs lines 306-400, `decode_packet`)

The sample source is modelled as the list of chunks it has yet to yield; an
exhausted list is a closed source (`stream.next()` returning `None`). -/

/-- Preamble-acquisition loop of `decode_packet` (stream.rs lines 322-352):
once the buffer holds at least a preamble's worth of samples, run
`synchronize`; on a confident, fully contained match, discard through the end
of the preamble and stop; otherwise pull more samples, failing when the
source is closed. -/
def syncLoop (L : Nat) : List (List Int) → List Int → Option (List (List Int) × List Int)
  | chunksLeft, buf =>
    let p := preamble L
    let found : Option (List Int) :=
      if p.length ≤ buf.length then
        let r := synchronize p buf
        if 0 ≤ r.1 ∧ corrThreshold < r.2 ∧ r.1.toNat + p.length < buf.length then
          some (buf.drop (r.1.toNat + p.length))
        else none
      else none
    match found with
    | some b => some (chunksLeft, b)
    | none =>
      match chunksLeft with
      | [] => none
      | c :: rest => syncLoop L rest (buf ++ c)

/-- Symbol-decoding loop shared by the length and payload phases of
`decode_packet` (stream.rs lines 356-397): per symbol, once the buffer holds
strictly more than one symbol length, band-pass, correlate the window with
`S0`, record the bit (set when the correlation is non-positive) and consume
the symbol; otherwise pull more samples, failing when the source is closed. -/
def decodeSymbols (L : Nat) :
    Nat → List (List Int) → List Int → Option (List Bool × List (List Int) × List Int)
  | 0, chunksLeft, buf => some ([], chunksLeft, buf)
  | count + 1, chunksLeft, buf =>
    if L < buf.length then
      let filtered := band_pass buf
      let value := dot_product (s0 L) (filtered.take L)
      match decodeSymbols L count chunksLeft (filtered.drop L) with
      | some (bits, ch, b) => some ((decide (value ≤ 0)) :: bits, ch, b)
      | none => none
    else
      match chunksLeft with
      | [] => none
      | c :: rest => decodeSymbols L (count + 1) rest (buf ++ c)
termination_by count chunksLeft _ => (chunksLeft.length, count)
decreasing_by
  · exact Prod.Lex.right _ (Nat.lt_succ_self _)
  · exact Prod.Lex.left _ _ (by simp)

/-- Value of the decoded length bits, least significant first: the decoder
accumulates `length += 1 << index` per set bit (stream.rs line 363). -/
def lengthVal : List Bool → Nat
  | [] => 0
  | b :: rest => (if b then 1 else 0) + 2 * lengthVal rest

/-- The ather `decode_packet` (stream.rs lines 306-400): acquire the
preamble, decode the 7-symbol length field, then decode that many payload
symbols; `none` when the sample source closes first. -/
def decode_packet (L : Nat) (chunksLeft : List (List Int)) (buf : List Int) :
    Option (List Bool) :=
  match syncLoop L chunksLeft buf with
  | none => none
  | some (c1, b1) =>
    match decodeSymbols L LENGTH_LEN c1 b1 with
    | none => none
    | some (lbits, c2, b2) =>
      match decodeSymbols L (lengthVal lbits) c2 b2 with
      | none => none
      | some (bits, _, _) => some bits

/-! ## Generic list and arithmetic helpers -/

theorem flatten_replicate_replicate (k L : Nat) (a : Int) :
    (List.replicate k (List.replicate L a)).flatten = List.replicate (k * L) a := by
  induction k with
  | zero => simp
  | succ n ih =>
    rw [List.replicate_succ, List.flatten_cons, ih, Nat.succ_mul, Nat.add_comm,
      List.replicate_add]

theorem bitsLE_zero (k : Nat) : bitsLE k 0 = List.replicate k false := by
  induction k with
  | zero => rfl
  | succ n ih => simp [bitsLE, ih, List.replicate_succ]

theorem encodeBits_false_replicate (L k : Nat) :
    encodeBits L (List.replicate k false) = List.replicate (k * L) 1 := by
  rw [encodeBits, List.map_replicate]
  simpa [encodeBit, s0] using flatten_replicate_replicate k L 1

theorem lengthVal_bitsLE (k : Nat) : ∀ n, lengthVal (bitsLE k n) = n % 2 ^ k := by
  induction k with
  | zero => intro n; simp [bitsLE, lengthVal, Nat.mod_one]
  | succ k ih =>
    intro n
    rw [bitsLE, lengthVal, ih (n / 2)]
    have h2 : n % 2 = 0 ∨ n % 2 = 1 := by omega
    have hsplit : n % 2 ^ (k + 1) = n % 2 + 2 * (n / 2 % 2 ^ k) := by
      have hq := Nat.div_add_mod (n / 2) (2 ^ k)
      have hqk : n / 2 % 2 ^ k < 2 ^ k := Nat.mod_lt _ (Nat.two_pow_pos k)
      have h1 : 2 * (n / 2) + n % 2
          = 2 * (n / 2 % 2 ^ k) + n % 2 + 2 * 2 ^ k * (n / 2 / 2 ^ k) := by
        conv_lhs => rw [← hq]
        ring
      conv_lhs => rw [← Nat.div_add_mod n 2, Nat.pow_succ', h1]
      rw [Nat.add_mul_mod_self_left, Nat.mod_eq_of_lt (by omega)]
      omega
    rcases h2 with h | h <;> simp [h, hsplit]

theorem encodeBit_length (L : Nat) (b : Bool) : (encodeBit L b).length = L := by
  cases b <;> simp [encodeBit, s0, s1]

theorem encodeBits_length (L : Nat) (bits : List Bool) :
    (encodeBits L bits).length = bits.length * L := by
  induction bits with
  | nil => simp [encodeBits]
  | cons b rest ih =>
    simp only [encodeBits, List.map_cons, List.flatten_cons, List.length_append,
      encodeBit_length] at *
    rw [ih, List.length_cons]; ring

theorem encodeBits_mem (L : Nat) (bits : List Bool) (x : Int)
    (hx : x ∈ encodeBits L bits) : x = 1 ∨ x = -1 := by
  simp only [encodeBits, List.mem_flatten, List.mem_map] at hx
  obtain ⟨l, ⟨b, _, rfl⟩, hxl⟩ := hx
  cases b <;> simp [encodeBit, s0, s1] at hxl <;> [left; right] <;> exact hxl.2

theorem preamble_length (L : Nat) (hL : 1 ≤ L) :
    (preamble L).length = PREAMBLE_LEN * L := by
  simp only [preamble, List.length_cons, List.length_replicate, PREAMBLE_LEN]
  omega

/-! ## Dot product lemmas -/

theorem dot_product_nil_right (a : List Int) : dot_product a [] = 0 := by
  simp [dot_product]

theorem dot_product_cons (x y : Int) (a b : List Int) :
    dot_product (x :: a) (y :: b) = x * y + dot_product a b := by
  simp [dot_product]

theorem dot_product_eq_sum (a : List Int) :
    ∀ b : List Int,
      dot_product a b =
        ∑ j ∈ Finset.range (min a.length b.length), a.getD j 0 * b.getD j 0 := by
  induction a with
  | nil => intro b; simp [dot_product]
  | cons x a ih =>
    intro b
    cases b with
    | nil => simp [dot_product]
    | cons y b =>
      rw [dot_product_cons, ih b]
      simp only [List.length_cons, Nat.succ_min_succ]
      rw [Finset.sum_range_succ' (fun j => (x :: a).getD j 0 * (y :: b).getD j 0)
        (min a.length b.length)]
      simp only [List.getD_cons_succ, List.getD_cons_zero]
      ring

theorem dot_product_replicate (L : Nat) (c : Int) :
    dot_product (List.replicate L 1) (List.replicate L c) = L * c := by
  induction L with
  | zero => simp [dot_product]
  | succ n ih =>
    rw [List.replicate_succ, List.replicate_succ, dot_product_cons, ih]
    push_cast; ring

theorem dot_product_s0_encodeBit (L : Nat) (b : Bool) :
    dot_product (s0 L) (encodeBit L b) = if b then -(L : Int) else (L : Int) := by
  cases b <;> simp [encodeBit, s0, s1, dot_product_replicate]

/-! ## Cauchy-Schwarz equality analysis over integer windows -/

theorem lagrange_sum_sq (m : Nat) (f g : Nat → Int) :
    ∑ j ∈ Finset.range m,
        ((∑ i ∈ Finset.range m, f i ^ 2) * g j - (∑ i ∈ Finset.range m, f i * g i) * f j) ^ 2 =
      (∑ i ∈ Finset.range m, f i ^ 2) *
        ((∑ i ∈ Finset.range m, f i ^ 2) * (∑ i ∈ Finset.range m, g i ^ 2) -
          (∑ i ∈ Finset.range m, f i * g i) ^ 2) := by
  set A := ∑ i ∈ Finset.range m, f i ^ 2 with hA
  set B := ∑ i ∈ Finset.range m, f i * g i with hB
  have expand : ∀ j, (A * g j - B * f j) ^ 2 =
      A ^ 2 * g j ^ 2 - 2 * A * B * (f j * g j) + B ^ 2 * f j ^ 2 := by
    intro j; ring
  rw [Finset.sum_congr rfl fun j _ => expand j]
  rw [Finset.sum_add_distrib, Finset.sum_sub_distrib, ← Finset.mul_sum, ← Finset.mul_sum,
    ← Finset.mul_sum]
  rw [← hB]
  ring

theorem cs_sq_le (m : Nat) (f g : Nat → Int)
    (hA : 0 < ∑ i ∈ Finset.range m, f i ^ 2) :
    (∑ i ∈ Finset.range m, f i * g i) ^ 2 ≤
      (∑ i ∈ Finset.range m, f i ^ 2) * (∑ i ∈ Finset.range m, g i ^ 2) := by
  have hnn : 0 ≤ ∑ j ∈ Finset.range m,
      ((∑ i ∈ Finset.range m, f i ^ 2) * g j - (∑ i ∈ Finset.range m, f i * g i) * f j) ^ 2 :=
    Finset.sum_nonneg fun j _ => sq_nonneg _
  rw [lagrange_sum_sq m f g] at hnn
  nlinarith [hnn]

theorem cs_eq_pointwise (m : Nat) (f g : Nat → Int)
    (heq : (∑ i ∈ Finset.range m, f i * g i) ^ 2 =
      (∑ i ∈ Finset.range m, f i ^ 2) * (∑ i ∈ Finset.range m, g i ^ 2)) :
    ∀ j < m, (∑ i ∈ Finset.range m, f i ^ 2) * g j = (∑ i ∈ Finset.range m, f i * g i) * f j := by
  intro j hj
  have hzero : ∑ j ∈ Finset.range m,
      ((∑ i ∈ Finset.range m, f i ^ 2) * g j - (∑ i ∈ Finset.range m, f i * g i) * f j) ^ 2 = 0 := by
    rw [lagrange_sum_sq m f g, ← heq]; ring
  have hterm := (Finset.sum_eq_zero_iff_of_nonneg (fun j _ => sq_nonneg _)).mp hzero j
    (Finset.mem_range.mpr hj)
  have := pow_eq_zero_iff (by omega : (2 : Nat) ≠ 0) |>.mp hterm
  linarith [this]

/-! ## Getter helpers -/

theorem getD_replicate_of_lt (n i : Nat) (a d : Int) (h : i < n) :
    (List.replicate n a).getD i d = a := by
  simp [List.getD_eq_getElem?_getD, List.getElem?_replicate, h]

theorem getD_window (l : List Int) (i j m : Nat) (hj : j < m) :
    ((l.drop i).take m).getD j 0 = l.getD (i + j) 0 := by
  simp [List.getD_eq_getElem?_getD, List.getElem?_take, hj, List.getElem?_drop]

theorem getD_mem_of_lt (l : List Int) (i : Nat) (h : i < l.length) : l.getD i 0 ∈ l := by
  rw [List.getD_eq_getElem?_getD, List.getElem?_eq_getElem h]
  exact List.getElem_mem h

theorem getD_of_le_length (l : List Int) (i : Nat) (h : l.length ≤ i) : l.getD i 0 = 0 := by
  rw [List.getD_eq_getElem?_getD, List.getElem?_eq_none h]
  rfl

theorem window_length (l : List Int) (i m : Nat) (h : i + m ≤ l.length) :
    ((l.drop i).take m).length = m := by
  simp only [List.length_take, List.length_drop]
  omega

/-! ## Structure of the written track -/

theorem chunks_single (b : List Bool) (hb : b.length ≤ 120) :
    chunks PAYLOAD_LEN b = if b = [] then [] else [b] := by
  cases b with
  | nil => simp [chunks, chunksAux]
  | cons x l =>
    have hlen : (x :: l).length ≤ 127 := by omega
    simp only [List.cons_ne_self x l |>.symm, if_neg (List.cons_ne_nil x l)]
    show chunksAux 126 (x :: l) = [x :: l]
    rw [chunksAux]
    rw [List.take_of_length_le (by omega), List.drop_eq_nil_of_le (by omega)]
    simp [chunksAux]

theorem encode_packet_ather_single (L : Nat) (b : List Bool) (hb : b.length ≤ 120) :
    encode_packet_ather L b = [dataFrameAther L b] := by
  rw [encode_packet_ather, chunks_single b hb]
  cases hb' : b == [] with
  | true =>
    have : b = [] := by simpa using hb'
    subst this
    simp [PAYLOAD_LEN]
  | false =>
    have hne : b ≠ [] := by simpa using hb'
    have hpos : 0 < b.length := List.length_pos.mpr hne
    have hPL : PAYLOAD_LEN = 127 := by decide
    have : ¬ (b.length % PAYLOAD_LEN = 0) := by
      rw [hPL]
      have : b.length % 127 = b.length := Nat.mod_eq_of_lt (by omega)
      omega
    simp [if_neg hne, this]

theorem track_pad_eq (L : Nat) (b : List Bool) (hb : b.length ≤ 120) :
    track L b ++ [0] =
      List.replicate (72 * L) 1 ++
        (preamble L ++ (lengthField L b.length ++ encodeBits L b ++ [0])) := by
  rw [track, writeFrames, encode_packet_ather_single L b hb]
  show (AtherFrame.samples (create_warmup L) ++ (AtherFrame.samples (dataFrameAther L b) ++ []))
      ++ [0] = _
  rw [create_warmup, dataFrameAther]
  show ((warmupSamples L ++ encodeBits L (bitsLE 64 0)) ++ []) ++
      ((preamble L ++ lengthField L b.length ++ encodeBits L b) ++ []) ++ [0] = _
  rw [bitsLE_zero, encodeBits_false_replicate, warmupSamples]
  have h72 : WARMUP_LEN * L + 64 * L = 72 * L := by simp only [WARMUP_LEN]; ring
  rw [List.append_nil, List.append_nil, ← List.replicate_add, h72]
  simp only [List.append_assoc]

theorem tail_vals (L : Nat) (b : List Bool) (x : Int)
    (hx : x ∈ List.replicate (PREAMBLE_LEN * L - 1) 1 ++
      (lengthField L b.length ++ encodeBits L b ++ [0])) :
    x = 1 ∨ x = -1 ∨ x = 0 := by
  simp only [List.mem_append, List.mem_replicate, List.mem_singleton] at hx
  rcases hx with ⟨_, rfl⟩ | (hx | hx) | rfl
  · left; rfl
  · rcases encodeBits_mem L _ x hx with h | h
    · left; exact h
    · right; left; exact h
  · rcases encodeBits_mem L b x hx with h | h
    · left; exact h
    · right; left; exact h
  · right; right; rfl

theorem trackPad_getD_le (L : Nat) (b : List Bool) (hb : b.length ≤ 120) (i : Nat) :
    (track L b ++ [0]).getD i 0 ≤ 3 := by
  rcases lt_or_ge i (track L b ++ [0]).length with h | h
  · generalize hv : (track L b ++ [0]).getD i 0 = v
    have hmem : v ∈ track L b ++ [0] := hv ▸ getD_mem_of_lt _ i h
    rw [track_pad_eq L b hb] at hmem
    rcases List.mem_append.mp hmem with hx | hx
    · have := (List.mem_replicate.mp hx).2; omega
    · rw [preamble, List.cons_append] at hx
      rcases List.mem_cons.mp hx with rfl | hx2
      · omega
      · rcases tail_vals L b v hx2 with rfl | rfl | rfl <;> omega
  · rw [getD_of_le_length _ i h]; omega

theorem trackPad_getD_lt72 (L : Nat) (b : List Bool) (hb : b.length ≤ 120) (i : Nat)
    (hi : i < 72 * L) : (track L b ++ [0]).getD i 0 = 1 := by
  rw [track_pad_eq L b hb, List.getD_append _ _ _ _ (by simpa using hi)]
  exact getD_replicate_of_lt _ i 1 0 hi

theorem trackPad_getD_at72 (L : Nat) (b : List Bool) (hb : b.length ≤ 120) :
    (track L b ++ [0]).getD (72 * L) 0 = 3 := by
  rw [track_pad_eq L b hb, List.getD_append_right _ _ _ _ (by simp)]
  simp [preamble]

theorem trackPad_getD_gt72 (L : Nat) (b : List Bool) (hb : b.length ≤ 120) (i : Nat)
    (hi : 72 * L < i) : (track L b ++ [0]).getD i 0 ≠ 3 := by
  rw [track_pad_eq L b hb, List.getD_append_right _ _ _ _ (by simp; omega)]
  simp only [List.length_replicate]
  rw [preamble]
  have h1 : 1 ≤ i - 72 * L := by omega
  rw [List.cons_append]
  cases hcase : i - 72 * L with
  | zero => omega
  | succ k =>
    rw [List.getD_cons_succ]
    set tl := List.replicate (PREAMBLE_LEN * L - 1) 1 ++
      (lengthField L b.length ++ encodeBits L b ++ [0]) with htl
    rcases lt_or_ge k tl.length with h | h
    · have := getD_mem_of_lt tl k h
      rcases tail_vals L b _ this with h' | h' | h' <;> rw [h'] <;> omega
    · rw [getD_of_le_length tl k h]; omega

/-! ## Correlation analysis of the track -/

theorem dot_product_self_nonneg (w : List Int) : 0 ≤ dot_product w w := by
  rw [dot_product_eq_sum]
  exact Finset.sum_nonneg fun j _ => mul_self_nonneg _

theorem dot_product_preamble_self (L : Nat) (hL : 1 ≤ L) :
    dot_product (preamble L) (preamble L) = 48 * L + 8 := by
  rw [preamble, dot_product_cons, dot_product_replicate]
  have h1 : (1 : Nat) ≤ PREAMBLE_LEN * L := by simp only [PREAMBLE_LEN]; omega
  have : ((PREAMBLE_LEN * L - 1 : Nat) : Int) = 48 * L - 1 := by
    rw [Nat.cast_sub h1]
    simp [PREAMBLE_LEN]
  rw [this]; ring

theorem bitsLE_length (k n : Nat) : (bitsLE k n).length = k := by
  induction k generalizing n with
  | zero => rfl
  | succ k ih => simp [bitsLE, ih]

theorem trackPad_length (L : Nat) (hL : 1 ≤ L) (b : List Bool) (hb : b.length ≤ 120) :
    (track L b ++ [0]).length = 127 * L + b.length * L + 1 := by
  rw [track_pad_eq L b hb]
  simp [preamble, lengthField, encodeBits_length, bitsLE_length, PREAMBLE_LEN, LENGTH_LEN]
  omega

theorem corrVal_self (p : List Int) (hp : 0 < dot_product p p) : corrVal p p = 1 := by
  simp only [corrVal]
  rw [Int.natAbs_of_nonneg (le_of_lt hp)]
  rw [div_self]
  intro hcast
  have : dot_product p p * dot_product p p = 0 := by exact_mod_cast hcast
  nlinarith

theorem window_at_sync (L : Nat) (b : List Bool) (hb : b.length ≤ 120) :
    ((track L b ++ [0]).drop (72 * L)).take (preamble L).length = preamble L := by
  rw [track_pad_eq L b hb]
  have hdrop : List.drop (72 * L)
      (List.replicate (72 * L) (1 : Int) ++
        (preamble L ++ (lengthField L b.length ++ encodeBits L b ++ [0]))) =
      preamble L ++ (lengthField L b.length ++ encodeBits L b ++ [0]) := by
    have h := List.drop_left (List.replicate (72 * L) (1 : Int))
      (preamble L ++ (lengthField L b.length ++ encodeBits L b ++ [0]))
    rwa [List.length_replicate] at h
  rw [hdrop]
  exact List.take_left _ _

theorem corr_lt_one (L : Nat) (hL : 1 ≤ L) (b : List Bool) (hb : b.length ≤ 120) (i : Nat)
    (hi : i + (preamble L).length ≤ (track L b ++ [0]).length) (hne : i ≠ 72 * L) :
    corrVal (preamble L) (((track L b ++ [0]).drop i).take (preamble L).length) < 1 := by
  set T := track L b ++ [0] with hT
  set p := preamble L with hp
  set m := p.length with hm
  set w := (T.drop i).take m with hw
  have hm48 : m = 48 * L := by
    rw [hm, hp, preamble_length L hL]; simp [PREAMBLE_LEN]
  have hm2 : 2 ≤ m := by omega
  have hwlen : w.length = m := window_length T i m hi
  set f : Nat → Int := fun j => w.getD j 0 with hf
  set g : Nat → Int := fun j => p.getD j 0 with hg
  have hdpw : dot_product p w = ∑ j ∈ Finset.range m, f j * g j := by
    rw [dot_product_eq_sum, ← hm, hwlen, min_self]
    exact Finset.sum_congr rfl fun j _ => mul_comm _ _
  have hAeq : dot_product w w = ∑ j ∈ Finset.range m, f j ^ 2 := by
    rw [dot_product_eq_sum, hwlen, min_self]
    exact Finset.sum_congr rfl fun j _ => (pow_two (f j)).symm
  have hPeq : dot_product p p = ∑ j ∈ Finset.range m, g j ^ 2 := by
    rw [dot_product_eq_sum, ← hm, min_self]
    exact Finset.sum_congr rfl fun j _ => (pow_two (g j)).symm
  have hPpos : 0 < dot_product p p := by
    rw [hp, dot_product_preamble_self L hL]; positivity
  have hAnn : 0 ≤ dot_product w w := dot_product_self_nonneg w
  have hg0 : g 0 = 3 := by rw [hg]; simp [hp, preamble]
  have hg1 : g 1 = 1 := by
    rw [hg]
    simp only [hp, preamble, List.getD_cons_succ]
    exact getD_replicate_of_lt _ 0 1 0 (by simp only [PREAMBLE_LEN]; omega)
  have hf0 : f 0 = T.getD i 0 := by
    rw [hf]
    simpa using getD_window T i 0 m (by omega)
  rcases le_or_lt (dot_product p w) 0 with hd0 | hd0
  · have hnum : ((dot_product p w * ((dot_product p w).natAbs : Int) : Int) : Rat) ≤ 0 := by
      have : dot_product p w * ((dot_product p w).natAbs : Int) ≤ 0 :=
        mul_nonpos_of_nonpos_of_nonneg hd0 (Int.natCast_nonneg _)
      exact_mod_cast this
    have hden : (0 : Rat) ≤ ((dot_product w w * dot_product p p : Int) : Rat) := by
      have : (0 : Int) ≤ dot_product w w * dot_product p p :=
        mul_nonneg hAnn (le_of_lt hPpos)
      exact_mod_cast this
    calc corrVal p w ≤ 0 := div_nonpos_of_nonpos_of_nonneg hnum hden
    _ < 1 := by norm_num
  · have hApos : 0 < dot_product w w := by
      rcases eq_or_lt_of_le hAnn with hA0 | hApos
      · exfalso
        have hz : ∀ j ∈ Finset.range m, f j ^ 2 = 0 := by
          refine (Finset.sum_eq_zero_iff_of_nonneg fun j _ => sq_nonneg _).mp ?_
          rw [← hAeq, ← hA0]
        have hd : dot_product p w = 0 := by
          rw [hdpw]
          refine Finset.sum_eq_zero fun j hj => ?_
          have : f j = 0 := pow_eq_zero_iff (by omega : (2 : Nat) ≠ 0) |>.mp (hz j hj)
          rw [this, zero_mul]
        omega
      · exact hApos
    have hstrict : (dot_product p w) ^ 2 < dot_product w w * dot_product p p := by
      have hcs : (∑ j ∈ Finset.range m, f j * g j) ^ 2 ≤
          (∑ j ∈ Finset.range m, f j ^ 2) * (∑ j ∈ Finset.range m, g j ^ 2) :=
        cs_sq_le m f g (by rw [← hAeq]; exact hApos)
      rw [← hdpw, ← hAeq, ← hPeq] at hcs
      rcases lt_or_eq_of_le hcs with h | heq
      · exact h
      · exfalso
        have hpt := cs_eq_pointwise m f g (by rw [← hdpw, ← hAeq, ← hPeq]; exact heq)
        have e0 := hpt 0 (by omega)
        have e1 := hpt 1 (by omega)
        rw [← hdpw, ← hAeq] at e0 e1
        rw [hg0] at e0
        rw [hg1] at e1
        have hf1pos : 0 < f 1 := by
          by_contra hle
          push_neg at hle
          nlinarith
        have hf03 : f 0 = 3 * f 1 := by
          have : dot_product p w * (f 0 - 3 * f 1) = 0 := by nlinarith
          rcases mul_eq_zero.mp this with h | h
          · omega
          · omega
        have hf0ge : 3 ≤ f 0 := by nlinarith
        have hle3 : T.getD i 0 ≤ 3 := by
          have := trackPad_getD_le L b hb i
          rw [← hT] at this
          exact this
        have h3 : T.getD i 0 = 3 := by omega
        rcases lt_trichotomy i (72 * L) with hlt | heq72 | hgt
        · have h1 := trackPad_getD_lt72 L b hb i hlt
          rw [← hT] at h1
          omega
        · exact hne heq72
        · refine trackPad_getD_gt72 L b hb i hgt ?_
          rw [← hT]
          exact h3
    have hnum : dot_product p w * ((dot_product p w).natAbs : Int) = (dot_product p w) ^ 2 := by
      rw [Int.natAbs_of_nonneg (le_of_lt hd0)]; ring
    simp only [corrVal, hnum]
    rw [div_lt_one (by exact_mod_cast mul_pos hApos hPpos)]
    exact_mod_cast hstrict

/-! ## The synchronizer finds the preamble -/

theorem foldl_sync_lt (v : Nat → Rat) (l : List Nat) :
    ∀ init : Int × Rat, (∀ i ∈ l, v i < 1) → init.2 < 1 →
      (l.foldl (fun best i => if best.2 < v i then ((i : Int), v i) else best) init).2 < 1 := by
  induction l with
  | nil => intro init _ hinit; exact hinit
  | cons a l ih =>
    intro init hall hinit
    simp only [List.foldl_cons]
    by_cases hc : init.2 < v a
    · rw [if_pos hc]
      exact ih _ (fun i hi => hall i (List.mem_cons_of_mem a hi)) (hall a (List.mem_cons_self a l))
    · rw [if_neg hc]
      exact ih _ (fun i hi => hall i (List.mem_cons_of_mem a hi)) hinit

theorem foldl_sync_const (v : Nat → Rat) (l : List Nat) (best : Int × Rat)
    (h : ∀ i ∈ l, ¬ best.2 < v i) :
    l.foldl (fun b i => if b.2 < v i then ((i : Int), v i) else b) best = best := by
  induction l with
  | nil => rfl
  | cons a l ih =>
    simp only [List.foldl_cons, if_neg (h a (List.mem_cons_self a l))]
    exact ih fun i hi => h i (List.mem_cons_of_mem a hi)

theorem foldl_sync_argmax (v : Nat → Rat) (n i0 : Nat) (hi0 : i0 < n)
    (hpeak : v i0 = 1) (hsmall : ∀ i < n, i ≠ i0 → v i < 1) :
    (List.range n).foldl (fun best i => if best.2 < v i then ((i : Int), v i) else best)
      ((-1 : Int), (-2 : Rat)) = ((i0 : Int), 1) := by
  obtain ⟨k, hk⟩ : ∃ k, n = i0 + (k + 1) := ⟨n - i0 - 1, by omega⟩
  subst hk
  rw [List.range_add, List.foldl_append]
  have stage1 : ((List.range i0).foldl
      (fun best i => if best.2 < v i then ((i : Int), v i) else best)
      ((-1 : Int), (-2 : Rat))).2 < 1 := by
    apply foldl_sync_lt
    · intro i hi
      have hi' : i < i0 := List.mem_range.mp hi
      exact hsmall i (by omega) (by omega)
    · norm_num
  rw [List.range_succ_eq_map, List.map_cons, List.foldl_cons]
  simp only [Nat.add_zero, hpeak, if_pos stage1]
  rw [List.map_map]
  apply foldl_sync_const
  intro i hi
  simp only [List.mem_map, Function.comp] at hi
  obtain ⟨j, hj, rfl⟩ := hi
  have hjk : j < k := List.mem_range.mp hj
  have hlt := hsmall (i0 + (j + 1)) (by omega) (by omega)
  simp only []
  exact not_lt.mpr (le_of_lt hlt)

set_option maxHeartbeats 1000000 in
theorem synchronize_track (L : Nat) (hL : 1 ≤ L) (b : List Bool) (hb : b.length ≤ 120) :
    synchronize (preamble L) (track L b ++ [0]) = (((72 * L : Nat) : Int), 1) := by
  have hplen2 : (preamble L).length = 48 * L := by
    rw [preamble_length L hL]; simp [PREAMBLE_LEN]
  have hN : (track L b ++ [0]).length = 127 * L + b.length * L + 1 := trackPad_length L hL b hb
  have hnotlt : ¬ (track L b ++ [0]).length < (preamble L).length := by
    rw [hplen2, hN]; omega
  rw [synchronize, if_neg hnotlt]
  refine foldl_sync_argmax _ _ _ ?_ ?_ ?_
  · rw [hplen2, hN]; omega
  · show corrVal (preamble L) (((track L b ++ [0]).drop (72 * L)).take (preamble L).length) = 1
    rw [window_at_sync L b hb]
    exact corrVal_self _ (by rw [dot_product_preamble_self L hL]; positivity)
  · intro i hi hne
    refine corr_lt_one L hL b hb i ?_ hne
    rw [hplen2, hN]
    rw [hplen2, hN] at hi
    omega

/-! ## Decoding the track -/

theorem drop_append2 (l1 l2 l3 : List Int) :
    (l1 ++ (l2 ++ l3)).drop (l1.length + l2.length) = l3 := by
  rw [← List.append_assoc, ← List.length_append]
  exact List.drop_left _ _

theorem syncLoop_track (L : Nat) (hL : 1 ≤ L) (b : List Bool) (hb : b.length ≤ 120) :
    syncLoop L [track L b ++ [0]] [] =
      some ([], lengthField L b.length ++ encodeBits L b ++ [0]) := by
  have hplen2 : (preamble L).length = 48 * L := by
    rw [preamble_length L hL]; simp [PREAMBLE_LEN]
  have hN : (track L b ++ [0]).length = 127 * L + b.length * L + 1 := trackPad_length L hL b hb
  rw [syncLoop]
  have hc1 : ¬ (preamble L).length ≤ ([] : List Int).length := by
    simp [hplen2]; omega
  rw [if_neg hc1]
  simp only [List.nil_append]
  rw [syncLoop]
  have hc2 : (preamble L).length ≤ (track L b ++ [0]).length := by rw [hplen2, hN]; omega
  rw [if_pos hc2, synchronize_track L hL b hb]
  have hcond : (0 : Int) ≤ ((72 * L : Nat) : Int) ∧
      corrThreshold < 1 ∧
      (((72 * L : Nat) : Int)).toNat + (preamble L).length < (track L b ++ [0]).length := by
    refine ⟨Int.natCast_nonneg _, ?_, ?_⟩
    · rw [corrThreshold]; norm_num
    · rw [Int.toNat_natCast, hplen2, hN]; omega
  rw [if_pos hcond]
  have hdrop : (track L b ++ [0]).drop ((((72 * L : Nat) : Int)).toNat + (preamble L).length) =
      lengthField L b.length ++ encodeBits L b ++ [0] := by
    rw [Int.toNat_natCast, track_pad_eq L b hb]
    have h1 : 72 * L = (List.replicate (72 * L) (1 : Int)).length := (List.length_replicate ..).symm
    calc (List.replicate (72 * L) (1 : Int) ++
          (preamble L ++ (lengthField L b.length ++ encodeBits L b ++ [0]))).drop
            (72 * L + (preamble L).length)
        = (List.replicate (72 * L) (1 : Int) ++
          (preamble L ++ (lengthField L b.length ++ encodeBits L b ++ [0]))).drop
            ((List.replicate (72 * L) (1 : Int)).length + (preamble L).length) := by rw [← h1]
      _ = lengthField L b.length ++ encodeBits L b ++ [0] := drop_append2 _ _ _
  rw [hdrop]

theorem decodeSymbols_zero (L : Nat) (chunksLeft : List (List Int)) (buf : List Int) :
    decodeSymbols L 0 chunksLeft buf = some ([], chunksLeft, buf) := by
  rw [decodeSymbols.eq_def]

theorem decodeSymbols_succ (L count : Nat) (chunksLeft : List (List Int)) (buf : List Int) :
    decodeSymbols L (count + 1) chunksLeft buf =
      if L < buf.length then
        match decodeSymbols L count chunksLeft ((band_pass buf).drop L) with
        | some (bits, ch, b) =>
            some (decide (dot_product (s0 L) ((band_pass buf).take L) ≤ 0) :: bits, ch, b)
        | none => none
      else
        match chunksLeft with
        | [] => none
        | c :: rest => decodeSymbols L (count + 1) rest (buf ++ c) := by
  rw [decodeSymbols.eq_def]

theorem encodeBits_cons (L : Nat) (bbit : Bool) (rest : List Bool) :
    encodeBits L (bbit :: rest) = encodeBit L bbit ++ encodeBits L rest := by
  simp [encodeBits]

theorem decodeSymbols_encode (L : Nat) (hL : 1 ≤ L) (bits : List Bool) :
    ∀ (chunksLeft : List (List Int)) (extra : List Int), 1 ≤ extra.length →
      decodeSymbols L bits.length chunksLeft (encodeBits L bits ++ extra) =
        some (bits, chunksLeft, extra) := by
  induction bits with
  | nil =>
    intro chunksLeft extra hex
    simp [decodeSymbols_zero, encodeBits]
  | cons bbit rest ih =>
    intro chunksLeft extra hex
    rw [encodeBits_cons, List.append_assoc]
    have hlen : (encodeBit L bbit ++ (encodeBits L rest ++ extra)).length =
        L + (rest.length * L + extra.length) := by
      simp [encodeBit_length, encodeBits_length]
    show decodeSymbols L (rest.length + 1) chunksLeft
        (encodeBit L bbit ++ (encodeBits L rest ++ extra)) = _
    rw [decodeSymbols_succ]
    have hgt : L < (encodeBit L bbit ++ (encodeBits L rest ++ extra)).length := by
      rw [hlen]; omega
    rw [if_pos hgt]
    have htake : (band_pass (encodeBit L bbit ++ (encodeBits L rest ++ extra))).take L =
        encodeBit L bbit := by
      rw [band_pass]
      have := List.take_left (encodeBit L bbit) (encodeBits L rest ++ extra)
      rwa [encodeBit_length] at this
    have hdrop : (band_pass (encodeBit L bbit ++ (encodeBits L rest ++ extra))).drop L =
        encodeBits L rest ++ extra := by
      rw [band_pass]
      have := List.drop_left (encodeBit L bbit) (encodeBits L rest ++ extra)
      rwa [encodeBit_length] at this
    rw [htake, hdrop, ih chunksLeft extra hex]
    have hbit : decide (dot_product (s0 L) (encodeBit L bbit) ≤ 0) = bbit := by
      rw [dot_product_s0_encodeBit]
      cases bbit
      · simp
        omega
      · simp
    rw [hbit]

theorem ather_roundtrip_core (L : Nat) (hL : 1 ≤ L) (b : List Bool) (hb : b.length ≤ 120) :
    decode_packet L [track L b ++ [0]] [] = some b := by
  have hlen7 : LENGTH_LEN = (bitsLE LENGTH_LEN b.length).length := (bitsLE_length ..).symm
  have h1 : decodeSymbols L LENGTH_LEN []
      (lengthField L b.length ++ (encodeBits L b ++ [0])) =
      some (bitsLE LENGTH_LEN b.length, [], encodeBits L b ++ [0]) := by
    rw [lengthField, hlen7]
    exact decodeSymbols_encode L hL _ [] (encodeBits L b ++ [0]) (by simp)
  have hval : lengthVal (bitsLE LENGTH_LEN b.length) = b.length := by
    rw [lengthVal_bitsLE]
    exact Nat.mod_eq_of_lt (by simp only [LENGTH_LEN]; omega)
  have h2 : decodeSymbols L b.length [] (encodeBits L b ++ [0]) = some (b, [], [0]) :=
    decodeSymbols_encode L hL b [] [0] (by simp)
  rw [decode_packet, syncLoop_track L hL b hb, List.append_assoc]
  simp only [h1, hval, h2]

/-- Modelled from the spec: the MAC payload size constant from racsma/builtin.rs,
canonical value 120 (spec section 6). -/
def PAYLOAD_BITS_LEN : Nat := 120

/-- Claim C1: for every bit vector `b` of length at most `PAYLOAD_BITS_LEN`,
modulating `b` with `AtherOutputStream::write` (warmup frame, then per-chunk
preamble + 7-symbol length field + payload symbols) and demodulating the
resulting samples with `decode_packet` over a noiseless loopback sample
source (the written track followed by trailing silence) yields exactly `b`.
`L` is the symbol length in samples. -/
theorem c1_modulation_roundtrip (L : Nat) (hL : 1 ≤ L) (b : List Bool)
    (hb : b.length ≤ PAYLOAD_BITS_LEN) :
    decode_packet L [track L b ++ [0]] [] = some b :=
  ather_roundtrip_core L hL b (by simpa [PAYLOAD_BITS_LEN] using hb)

/-- Witness for C1 at a concrete symbol length and bit vector. -/
theorem c1_modulation_roundtrip_witness :
    1 ≤ 1 ∧ [true, false].length ≤ PAYLOAD_BITS_LEN ∧
      decode_packet 1 [track 1 [true, false] ++ [0]] [] = some [true, false] :=
  ⟨by decide, by decide,
    c1_modulation_roundtrip 1 (by decide) [true, false] (by decide)⟩

/-! ## Frame counting for the writer (claim C7) -/

theorem chunksAux_nil (m : Nat) : chunksAux m ([] : List α) = [] := by
  rw [chunksAux.eq_def]

theorem chunksAux_cons (m : Nat) (a : α) (l : List α) :
    chunksAux m (a :: l) = ((a :: l).take (m + 1)) :: chunksAux m ((a :: l).drop (m + 1)) := by
  rw [chunksAux.eq_def]

theorem chunksAux_length (m : Nat) :
    ∀ (k : Nat) (l : List α), l.length ≤ k →
      (chunksAux m l).length = (l.length + m) / (m + 1) := by
  intro k
  induction k with
  | zero =>
    intro l hl
    have : l = [] := List.eq_nil_of_length_eq_zero (by omega)
    subst this
    rw [chunksAux_nil]
    simp only [List.length_nil, Nat.zero_add]
    rw [Nat.div_eq_of_lt (by omega)]
  | succ k ih =>
    intro l hl
    cases l with
    | nil =>
      rw [chunksAux_nil]
      simp only [List.length_nil, Nat.zero_add]
      rw [Nat.div_eq_of_lt (by omega)]
    | cons a t =>
      have hl' : t.length + 1 ≤ k + 1 := by simpa using hl
      have hdlen : ((a :: t).drop (m + 1)).length = t.length - m := by simp
      rw [chunksAux_cons, List.length_cons,
        ih ((a :: t).drop (m + 1)) (by rw [hdlen]; omega), hdlen, List.length_cons]
      rcases le_or_lt (t.length + 1) (m + 1) with hle | hgt
      · have hz : t.length - m = 0 := by omega
        have h1 : (t.length + 1 + m) / (m + 1) = 1 :=
          Nat.div_eq_of_lt_le (by omega) (by omega)
        rw [hz, Nat.zero_add, Nat.div_eq_of_lt (by omega), h1]
      · have hsplit : t.length + 1 + m = (t.length - m + m) + (m + 1) := by omega
        rw [hsplit, Nat.add_div_right _ (by omega)]

theorem chunks_length_eq (l : List Bool) :
    (chunks PAYLOAD_LEN l).length = (l.length + 126) / 127 := by
  have hPL : PAYLOAD_LEN = 127 := by decide
  rw [chunks, hPL]
  exact chunksAux_length 126 l.length l (le_refl _)

theorem chunksAux_ne_nil (m : Nat) :
    ∀ (k : Nat) (l : List α), l.length ≤ k → ∀ c ∈ chunksAux m l, c ≠ [] := by
  intro k
  induction k with
  | zero =>
    intro l hl c hc
    have : l = [] := List.eq_nil_of_length_eq_zero (by omega)
    subst this
    rw [chunksAux_nil] at hc
    simp at hc
  | succ k ih =>
    intro l hl c hc
    cases l with
    | nil => rw [chunksAux_nil] at hc; simp at hc
    | cons a t =>
      have hl' : t.length + 1 ≤ k + 1 := by simpa using hl
      have hdlen : ((a :: t).drop (m + 1)).length = t.length - m := by simp
      rw [chunksAux_cons] at hc
      rcases List.mem_cons.mp hc with rfl | hc2
      · simp
      · exact ih ((a :: t).drop (m + 1)) (by rw [hdlen]; omega) c hc2

theorem dataFrameAther_body_ne_nil (L : Nat) (hL : 1 ≤ L) (c : List Bool) (hc : c ≠ []) :
    (dataFrameAther L c).body ≠ [] := by
  show encodeBits L c ≠ []
  intro h
  have hlen := encodeBits_length L c
  rw [h] at hlen
  simp only [List.length_nil] at hlen
  have hpos : 0 < c.length := List.length_pos.mpr hc
  have hprod : 0 < c.length * L := Nat.mul_pos hpos (by omega)
  omega

/-- Claim C7: `AtherOutputStream::write` emits exactly one warmup frame first,
then one audio frame per `PAYLOAD_LEN`(=127)-bit chunk of the bits, and
appends one additional empty (length-0) audio frame exactly when the bit
count is a multiple of 127 (including the empty bit vector); otherwise the
final frame carries a nonempty payload. -/
theorem c7_write_frame_layout (L : Nat) (hL : 1 ≤ L) (bits : List Bool) :
    (writeFrames L bits).head? = some (create_warmup L) ∧
    (writeFrames L bits).length =
      1 + (bits.length + 126) / 127 + (if bits.length % 127 = 0 then 1 else 0) ∧
    ((encode_packet_ather L bits).getLast? = some (dataFrameAther L []) ↔
      bits.length % 127 = 0) := by
  have hPL : PAYLOAD_LEN = 127 := by decide
  have hclen : ((chunks 127 bits).map (dataFrameAther L)).length =
      (bits.length + 126) / 127 := by
    have h0 := chunks_length_eq bits
    rw [hPL] at h0
    rw [List.length_map, h0]
  refine ⟨rfl, ?_, ?_⟩
  · rw [writeFrames, List.length_cons, encode_packet_ather]
    simp only [hPL]
    by_cases h : bits.length % 127 = 0
    · rw [if_pos h, if_pos h, List.length_append, hclen]
      simp
      omega
    · rw [if_neg h, if_neg h, hclen]
      omega
  · rw [encode_packet_ather]
    simp only [hPL]
    show ((if bits.length % 127 = 0 then
        (chunks 127 bits).map (dataFrameAther L) ++ [dataFrameAther L []]
      else (chunks 127 bits).map (dataFrameAther L)).getLast? =
        some (dataFrameAther L [])) ↔ bits.length % 127 = 0
    by_cases h : bits.length % 127 = 0
    · rw [if_pos h]
      simp only [h, iff_true]
      exact List.getLast?_concat _
    · rw [if_neg h]
      simp only [h, iff_false]
      intro hlast
      have hne : bits ≠ [] := by
        intro hnil
        subst hnil
        simp at h
      have hchne : chunks 127 bits ≠ [] := by
        cases bits with
        | nil => exact absurd rfl hne
        | cons a t =>
          show chunksAux 126 (a :: t) ≠ []
          rw [chunksAux_cons]
          exact List.cons_ne_nil _ _
      rw [List.getLast?_map, List.getLast?_eq_getLast _ hchne] at hlast
      have heq : dataFrameAther L ((chunks 127 bits).getLast hchne) =
          dataFrameAther L [] := by
        simpa using hlast
      have hlastmem := List.getLast_mem hchne
      have hlastne : (chunks 127 bits).getLast hchne ≠ [] := by
        have hall := chunksAux_ne_nil 126 bits.length bits (le_refl _)
        exact hall _ hlastmem
      have hbody := congrArg AtherFrame.body heq
      exact dataFrameAther_body_ne_nil L hL _ hlastne (by simpa using hbody)

/-- Witness for C7 at a concrete symbol length and bit vector. -/
theorem c7_write_frame_layout_witness :
    1 ≤ 1 ∧
      ((writeFrames 1 [true]).head? = some (create_warmup 1) ∧
      (writeFrames 1 [true]).length =
        1 + ([true].length + 126) / 127 + (if [true].length % 127 = 0 then 1 else 0) ∧
      ((encode_packet_ather 1 [true]).getLast? = some (dataFrameAther 1 []) ↔
        [true].length % 127 = 0)) :=
  ⟨by decide, c7_write_frame_layout 1 (by decide) [true]⟩

/-! ## MAC layer (src/racsma/socket.rs)

Constants below are from racsma/builtin.rs, which is not in the sources;
they are modelled from the spec's canonical table (section 6). -/

/-- Modelled from the spec: sequence field width in bits.  The spec fixes no
canonical value (only a lower bound), so theorems are parameterized over it;
this constant is used by witnesses. -/
def SEQ_BITS_LEN : Nat := 16

/-- Modelled from the spec: broadcast address, canonical value 0. -/
def SOCKET_BROADCAST_ADDRESS : Nat := 0

/-- Modelled from the spec: maximal back-off exponent range, canonical 16. -/
def SOCKET_MAX_RANGE : Nat := 16

/-- Modelled from the spec: maximal resend count, canonical 10. -/
def SOCKET_MAX_RESENDS : Nat := 10

/-- Modelled from the spec: dedup jar capacity, canonical 128. -/
def SOCKET_JAR_CAPACITY : Nat := 128

/-- Modelled from the spec: back-off slot duration in milliseconds, canonical
100 ms (durations are modelled in milliseconds). -/
def SOCKET_SLOT_TIMEOUT : Nat := 100

/-- MAC frame type tag, the `type` field of the frame header (spec section
4.5; the bit-level codec lives in racsma/frame.rs, not in the sources). -/
inductive FrameType where
  | data
  | ack
  | macPingReq
  | macPingResp
  deriving Repr, DecidableEq

/-- MAC frame header (racsma/frame.rs `FrameHeader`, spec section 3):
destination, source, sequence number, EOP flag, type tag. -/
structure FrameHeader where
  dest : Nat
  src : Nat
  seq : Nat
  eop : Bool
  typ : FrameType
  deriving Repr, DecidableEq

/-- Non-ACK MAC frames (`NonAckFrame` in racsma/frame.rs): `Data` with a bit
payload, or `MacPingReq`. -/
inductive NonAckFrame where
  | data (header : FrameHeader) (payload : List Bool)
  | macPingReq (header : FrameHeader)
  deriving Repr, DecidableEq

/-- All MAC frames (`AcsmaFrame`): non-ACK frames plus `Ack` and
`MacPingResp`. -/
inductive AcsmaFrame where
  | nonAck (frame : NonAckFrame)
  | ack (header : FrameHeader)
  | macPingResp (header : FrameHeader)
  deriving Repr, DecidableEq

/-- Header of a non-ACK frame. -/
def NonAckFrame.header : NonAckFrame → FrameHeader
  | .data h _ => h
  | .macPingReq h => h

/-- Header of any frame (`AcsmaFrame::header`). -/
def AcsmaFrame.header : AcsmaFrame → FrameHeader
  | .nonAck f => f.header
  | .ack h => h
  | .macPingResp h => h

/-- `DataFrame::new(dest, src, seq, flag, payload)`. -/
def DataFrame.new (dest src seq : Nat) (eop : Bool) (payload : List Bool) : NonAckFrame :=
  .data ⟨dest, src, seq, eop, .data⟩ payload

/-- `AckFrame::new(dest, src, seq)`. -/
def AckFrame.new (dest src seq : Nat) : AcsmaFrame :=
  .ack ⟨dest, src, seq, false, .ack⟩

/-- `MacPingReqFrame::new(dest, src)`. -/
def MacPingReqFrame.new (dest src : Nat) : NonAckFrame :=
  .macPingReq ⟨dest, src, 0, false, .macPingReq⟩

/-- `MacPingRespFrame::new(dest, src)`. -/
def MacPingRespFrame.new (dest src : Nat) : AcsmaFrame :=
  .macPingResp ⟨dest, src, 0, false, .macPingResp⟩

/-- Modelled from the spec: `NonAckFrame::corresponds(header)` from
racsma/frame.rs — a pending frame corresponds to a received header when the
type families match (`Data` is answered by `Ack`, `MacPingReq` by
`MacPingResp`). -/
def NonAckFrame.corresponds (f : NonAckFrame) (h : FrameHeader) : Bool :=
  match f, h.typ with
  | .data _ _, .ack => true
  | .macPingReq _, .macPingResp => true
  | _, _ => false

/-- `is_for_self` (socket.rs lines 428-432): the frame is addressed to this
socket, or broadcast from another socket. -/
def is_for_self (address : Nat) (header : FrameHeader) : Bool :=
  (header.dest == address) ||
    (header.dest == SOCKET_BROADCAST_ADDRESS && header.src != address)

/-- `create_resp` (socket.rs lines 443-454): synthesize the `Ack` (mirroring
the sequence number) or `MacPingResp` answer to a received non-ACK frame,
with source and destination swapped. -/
def create_resp (header : FrameHeader) (non_ack : NonAckFrame) : AcsmaFrame :=
  match non_ack with
  | .data _ _ => AckFrame.new header.src header.dest header.seq
  | .macPingReq _ => MacPingRespFrame.new header.src header.dest

/-- The dedup jar, `AllocRingBuffer::new(SOCKET_JAR_CAPACITY)` (socket.rs
line 307): a bounded ring buffer of recently seen sequence numbers, oldest
evicted on overflow. -/
def jarPush (jar : List Nat) (seq : Nat) : List Nat :=
  if jar.length < SOCKET_JAR_CAPACITY then jar ++ [seq]
  else jar.drop 1 ++ [seq]

/-- A queued write task: the frame plus an identifier standing for the
one-shot completion channel (`AcsmaSocketWriteTask`, socket.rs line 246). -/
structure WriteTask where
  frame : NonAckFrame
  chan : Nat
  deriving Repr, DecidableEq

/-- `AcsmaSocketWriteTimerInner` (socket.rs lines 529-532). -/
structure TimerInner where
  task : WriteTask
  resends : Nat
  deriving Repr, DecidableEq

/-- `AcsmaSocketWriteTimer` (socket.rs lines 516-527).  The `start : Instant`
field is replaced by an expiry oracle consumed per iteration; the back-off
duration is kept in milliseconds. -/
inductive WriteTimer where
  | timeout (inner : TimerInner)
  | backoff (inner : Option TimerInner) (retry : Nat) (duration : Nat)
  deriving Repr, DecidableEq

/-- `AcsmaSocketWriteTimer::timeout(task, resends)` (socket.rs lines
559-564). -/
def WriteTimer.mkTimeout (task : WriteTask) (resends : Nat) : WriteTimer :=
  .timeout ⟨task, resends⟩

/-- `AcsmaSocketWriteTimer::backoff(task, retry, duration)` (socket.rs lines
566-574).  Note that the inner resend counter is initialized to zero. -/
def WriteTimer.mkBackoff (task : Option WriteTask) (retry : Nat) (duration : Nat) :
    WriteTimer :=
  .backoff (task.map fun t => ⟨t, 0⟩) retry duration

/-- Completion signals sent on a task's one-shot channel. -/
inductive Signal where
  | ok (chan : Nat)
  | linkError (chan : Nat) (resends : Nat)
  deriving Repr, DecidableEq

/-- Modelled from the spec: the random number generator is a stream of draws;
`gen_range(0..=range)` consumes the head reduced into the inclusive range. -/
def genRangeIncl (rng : List Nat) (range : Nat) : Nat × List Nat :=
  match rng with
  | [] => (0, [])
  | r :: rest => (r % (range + 1), rest)

/-- `generate_backoff(rng, factor)` (socket.rs lines 547-556): draw `k` from
`0..=min(1 << factor, SOCKET_MAX_RANGE)` and wait `k` slots.  The shift uses
the masked semantics of a 64-bit `usize` shift. -/
def generate_backoff (rng : List Nat) (factor : Nat) : Nat × List Nat :=
  let range := if 1 <<< (factor % 64) > SOCKET_MAX_RANGE then SOCKET_MAX_RANGE
    else 1 <<< (factor % 64)
  let kr := genRangeIncl rng range
  (kr.1 * SOCKET_SLOT_TIMEOUT, kr.2)

/-- `create_backoff(rng, task, retry)` (socket.rs lines 434-441). -/
def create_backoff (rng : List Nat) (task : WriteTask) (retry : Nat) :
    WriteTimer × List Nat :=
  let dr := generate_backoff rng retry
  (WriteTimer.mkBackoff (some task) retry dr.1, dr.2)

/-- `clear_timer(rng, header, timer)` (socket.rs lines 470-505): when the
timer holds a task whose frame corresponds to the received header with equal
sequence number, signal the task's channel `Ok`, and replace the timer with a
task-free back-off window; otherwise return the timer unchanged. -/
def clear_timer (rng : List Nat) (header : FrameHeader) (timer : WriteTimer) :
    WriteTimer × Option Signal × List Nat :=
  let inner : Option TimerInner :=
    match timer with
    | .timeout inner => some inner
    | .backoff (some inner) _ _ => some inner
    | _ => none
  match inner with
  | some inner =>
    let type_ok := inner.task.frame.corresponds header
    let seq_ok := inner.task.frame.header.seq == header.seq
    if type_ok && seq_ok then
      let dr := generate_backoff rng 0
      (WriteTimer.mkBackoff none 0 dr.1, some (.ok inner.task.chan), dr.2)
    else (timer, none, rng)
  | none => (timer, none, rng)

/-- `write_bits` (socket.rs lines 507-515): writes the frame to the ather and
always reports the frame as sent — collision detection is stubbed. -/
def write_bits : Bool := true

/-- Result of the daemon's receive phase. -/
structure RecvResult where
  jar : List Nat
  writeState : Option WriteTimer
  rng : List Nat
  resp : Option AcsmaFrame
  forwarded : Option NonAckFrame
  signal : Option Signal
  deriving Repr, DecidableEq

/-- Receive phase of `socket_daemon` (socket.rs lines 319-352): on a decoded
frame addressed to this socket, answer every non-ACK frame immediately
(`Ack` or `MacPingResp`), forward it to the reader exactly when its sequence
is not in the dedup jar (pushing the sequence), and on `Ack`/`MacPingResp`
run `clear_timer` against the current write timer if one exists.  `input` is
`none` when the receive wait timed out or the checksum failed. -/
def daemonRecvPhase (address : Nat) (rng jar : List Nat)
    (writeState : Option WriteTimer) (input : Option AcsmaFrame) : RecvResult :=
  match input with
  | none => ⟨jar, writeState, rng, none, none, none⟩
  | some frame =>
    let header := frame.header
    if is_for_self address header then
      match frame with
      | .nonAck non_ack =>
        let resp := create_resp header non_ack
        if jar.contains header.seq then
          ⟨jar, writeState, rng, some resp, none, none⟩
        else
          ⟨jarPush jar header.seq, writeState, rng, some resp, some non_ack, none⟩
      | _ =>
        match writeState with
        | some timer =>
          let r := clear_timer rng header timer
          ⟨jar, some r.1, r.2.2, none, none, r.2.1⟩
        | none => ⟨jar, writeState, rng, none, none, none⟩
    else ⟨jar, writeState, rng, none, none, none⟩

/-- Result of the daemon's timer and enqueue phases. -/
structure WritePhaseResult where
  writeState : Option WriteTimer
  rng : List Nat
  transmitted : Option WriteTask
  signal : Option Signal
  deriving Repr, DecidableEq

/-- Timer phase of `socket_daemon` (socket.rs lines 354-398), entered when a
write timer exists.  `expired` and `channelFree` are the oracles for
`timer.is_expired()` and `is_channel_free`.  An expired `Timeout` becomes a
`Backoff` carrying the task (with the constructor resetting the resend
counter); an expired `Backoff` with a task re-arms on a busy channel, signals
`LinkError` when its resend counter exceeds `SOCKET_MAX_RESENDS`, and
otherwise retransmits; an expired task-free `Backoff` is dropped. -/
def daemonTimerPhase (rng : List Nat) (timer : WriteTimer)
    (expired channelFree : Bool) : WritePhaseResult :=
  if expired then
    match timer with
    | .timeout inner =>
      let br := create_backoff rng inner.task 0
      ⟨some br.1, br.2, none, none⟩
    | .backoff (some inner) retry _ =>
      if !channelFree then
        let br := create_backoff rng inner.task (retry + 1)
        ⟨some br.1, br.2, none, none⟩
      else if inner.resends > SOCKET_MAX_RESENDS then
        ⟨none, rng, none, some (.linkError inner.task.chan inner.resends)⟩
      else if !write_bits then
        let br := create_backoff rng inner.task (retry + 1)
        ⟨some br.1, br.2, none, none⟩
      else
        ⟨some (WriteTimer.mkTimeout inner.task (inner.resends + 1)), rng,
          some inner.task, none⟩
    | .backoff none _ _ => ⟨none, rng, none, none⟩
  else ⟨some timer, rng, none, none⟩

/-- Enqueue phase of `socket_daemon` (socket.rs lines 399-423), entered when
no write timer exists: poll the write-task queue; on a task, back off if the
channel is busy, otherwise transmit and arm the ACK timeout. -/
def daemonEnqueuePhase (rng : List Nat) (channelFree : Bool)
    (incoming : Option WriteTask) : WritePhaseResult :=
  match incoming with
  | some task =>
    if !channelFree then
      let br := create_backoff rng task 0
      ⟨some br.1, br.2, none, none⟩
    else if !write_bits then
      let br := create_backoff rng task 1
      ⟨some br.1, br.2, none, none⟩
    else ⟨some (WriteTimer.mkTimeout task 0), rng, some task, none⟩
  | none => ⟨none, rng, none, none⟩

/-- Mutable state owned by the daemon loop. -/
structure DaemonState where
  writeState : Option WriteTimer
  jar : List Nat
  rng : List Nat
  deriving Repr, DecidableEq

/-- Per-iteration oracle inputs of the daemon loop. -/
structure StepInput where
  recv : Option AcsmaFrame
  expired : Bool
  channelFree : Bool
  incoming : Option WriteTask
  deriving Repr, DecidableEq

/-- Observable outputs of one daemon iteration. -/
structure StepOutput where
  resp : Option AcsmaFrame
  forwarded : Option NonAckFrame
  transmitted : Option WriteTask
  signals : List Signal
  deriving Repr, DecidableEq

/-- One iteration of the `socket_daemon` loop (socket.rs lines 308-424):
receive phase, then the timer phase when a write timer exists, else the
enqueue phase. -/
def daemonStep (address : Nat) (st : DaemonState) (input : StepInput) :
    DaemonState × StepOutput :=
  let ra := daemonRecvPhase address st.rng st.jar st.writeState input.recv
  match ra.writeState with
  | some timer =>
    let rb := daemonTimerPhase ra.rng timer input.expired input.channelFree
    (⟨rb.writeState, ra.jar, rb.rng⟩,
      ⟨ra.resp, ra.forwarded, rb.transmitted, ra.signal.toList ++ rb.signal.toList⟩)
  | none =>
    let rc := daemonEnqueuePhase ra.rng input.channelFree input.incoming
    (⟨rc.writeState, ra.jar, rc.rng⟩,
      ⟨ra.resp, ra.forwarded, rc.transmitted, ra.signal.toList ++ rc.signal.toList⟩)

/-- Run the daemon over a list of per-iteration inputs, collecting outputs. -/
def daemonRun (address : Nat) : DaemonState → List StepInput → DaemonState × List StepOutput
  | st, [] => (st, [])
  | st, i :: rest =>
    let r := daemonStep address st i
    let rr := daemonRun address r.1 rest
    (rr.1, r.2 :: rr.2)

/-! ## Writer facade (socket.rs lines 121-167) -/

/-- The socket `encode_packet` (socket.rs lines 126-140) with the randomly
drawn base sequence made explicit: chunk the bits into
`PAYLOAD_BITS_LEN`-payloads, stamp frame `i` with `seq = base + i`, and set
the `EOP` flag exactly on the last frame. -/
def encode_packet (base : Nat) (bits : List Bool) (src dest : Nat) : List NonAckFrame :=
  let frames := chunks PAYLOAD_BITS_LEN bits
  let len := frames.length
  frames.enum.map fun pair =>
    DataFrame.new dest src (base + pair.1) (decide (pair.1 = len - 1)) pair.2

/-- The base-sequence draw `rng.gen_range(0..((1 << SEQ_BITS_LEN) - bits.len()))`
(socket.rs line 128): `none` models the panic when the range is empty or the
subtraction overflows (`bits.len() ≥ 2^SEQ_BITS_LEN`). -/
def drawBase (seqBits rngDraw len : Nat) : Option Nat :=
  if len < 2 ^ seqBits then some (rngDraw % (2 ^ seqBits - len)) else none

/-- `encode_packet` including the base draw, as called by
`AcsmaSocketWriter::write` and `write_unchecked` (socket.rs lines 142-167). -/
def encode_packet_checked (seqBits rngDraw : Nat) (bits : List Bool) (src dest : Nat) :
    Option (List NonAckFrame) :=
  (drawBase seqBits rngDraw bits.length).map fun base => encode_packet base bits src dest

/-! ## Claim C2: the resend budget -/

/-- Claim C2 (code bug): a Data write task whose ACK never arrives is
retransmitted without bound, and no `LinkError` is ever signalled.  With the
channel always free and every timer expiry observed, 25 daemon iterations
transmit the same task's frame 13 times — more than the claimed bound of
`SOCKET_MAX_RESENDS + 1 = 11` — while its completion channel receives no
signal at all.  The cause: `AcsmaSocketWriteTimer::backoff` resets the inner
resend counter to zero, so the `resends > SOCKET_MAX_RESENDS` test never
fires. -/
theorem c2_resend_budget_violated :
    (((daemonRun 1 ⟨none, [], []⟩
        (⟨none, false, true, some ⟨DataFrame.new 2 1 5 true [], 7⟩⟩ ::
          List.replicate 24 ⟨none, true, true, none⟩)).2.map
        fun o => o.transmitted.toList).flatten.length = 13) ∧
    SOCKET_MAX_RESENDS + 1 = 11 ∧
    (((daemonRun 1 ⟨none, [], []⟩
        (⟨none, false, true, some ⟨DataFrame.new 2 1 5 true [], 7⟩⟩ ::
          List.replicate 24 ⟨none, true, true, none⟩)).2.map
        fun o => o.signals).flatten = []) := by
  decide

/-- Helper: the resend counter stored in a timeout timer. -/
def timeoutResends : WriteTimer → Option Nat
  | .timeout inner => some inner.resends
  | .backoff _ _ _ => none

/-- Helper: the resend counter stored in a backoff timer, when present. -/
def backoffResends : WriteTimer → Option Nat
  | .backoff (some inner) _ _ => some inner.resends
  | _ => none

/-- The per-timer invariant forced by the `backoff` constructor resetting the
resend counter: a timeout timer records at most one resend and a backoff
timer records zero. -/
def timerInv (t : WriteTimer) : Prop :=
  (∀ r, timeoutResends t = some r → r ≤ 1) ∧
    (∀ r, backoffResends t = some r → r = 0)

/-- The daemon-state invariant. -/
def resendsInv (st : DaemonState) : Prop :=
  ∀ t, st.writeState = some t → timerInv t

theorem clear_timer_resends (rng : List Nat) (header : FrameHeader) (timer : WriteTimer)
    (h : timerInv timer) :
    timerInv (clear_timer rng header timer).1 ∧
      ∀ c r, (clear_timer rng header timer).2.1 ≠ some (.linkError c r) := by
  have hfresh : timerInv (WriteTimer.mkBackoff none 0 (generate_backoff rng 0).1) := by
    constructor
    · intro r hr; simp [WriteTimer.mkBackoff, timeoutResends] at hr
    · intro r hr; simp [WriteTimer.mkBackoff, backoffResends] at hr
  cases timer with
  | timeout inner =>
    by_cases hc : (inner.task.frame.corresponds header &&
        (inner.task.frame.header.seq == header.seq)) = true
    · simp only [clear_timer, hc, if_true]
      exact ⟨hfresh, fun c r => by simp⟩
    · simp only [clear_timer, hc, Bool.false_eq_true, if_false]
      exact ⟨h, fun c r => by simp⟩
  | backoff inner retry dur =>
    cases inner with
    | some inner =>
      by_cases hc : (inner.task.frame.corresponds header &&
          (inner.task.frame.header.seq == header.seq)) = true
      · simp only [clear_timer, hc, if_true]
        exact ⟨hfresh, fun c r => by simp⟩
      · simp only [clear_timer, hc, Bool.false_eq_true, if_false]
        exact ⟨h, fun c r => by simp⟩
    | none =>
      simp only [clear_timer]
      exact ⟨h, fun c r => by simp⟩

theorem daemonRecvPhase_resends (address : Nat) (rng jar : List Nat)
    (ws : Option WriteTimer) (input : Option AcsmaFrame)
    (h : ∀ t, ws = some t → timerInv t) :
    (∀ t, (daemonRecvPhase address rng jar ws input).writeState = some t → timerInv t) ∧
      ∀ c r, (daemonRecvPhase address rng jar ws input).signal ≠ some (.linkError c r) := by
  cases input with
  | none =>
    simp only [daemonRecvPhase]
    exact ⟨h, fun c r => by simp⟩
  | some frame =>
    by_cases hself : is_for_self address frame.header = true
    · cases frame with
      | nonAck na =>
        by_cases hjar : jar.contains (AcsmaFrame.nonAck na).header.seq = true
        · simp only [daemonRecvPhase, hself, if_true, hjar]
          exact ⟨h, fun c r => by simp⟩
        · simp only [daemonRecvPhase, hself, if_true, hjar, Bool.false_eq_true, if_false]
          exact ⟨h, fun c r => by simp⟩
      | ack hd =>
        cases hws : ws with
        | none =>
          simp only [daemonRecvPhase, hself, if_true]
          exact ⟨fun t ht => h t (hws ▸ ht), fun c r => by simp⟩
        | some timer =>
          have hct := clear_timer_resends rng (AcsmaFrame.ack hd).header timer (h timer hws)
          simp only [daemonRecvPhase, hself, if_true]
          refine ⟨?_, fun c r => hct.2 c r⟩
          intro t ht
          simp only [Option.some.injEq] at ht
          exact ht ▸ hct.1
      | macPingResp hd =>
        cases hws : ws with
        | none =>
          simp only [daemonRecvPhase, hself, if_true]
          exact ⟨fun t ht => h t (hws ▸ ht), fun c r => by simp⟩
        | some timer =>
          have hct := clear_timer_resends rng (AcsmaFrame.macPingResp hd).header timer
            (h timer hws)
          simp only [daemonRecvPhase, hself, if_true]
          refine ⟨?_, fun c r => hct.2 c r⟩
          intro t ht
          simp only [Option.some.injEq] at ht
          exact ht ▸ hct.1
    · simp only [Bool.not_eq_true] at hself
      simp only [daemonRecvPhase, hself, Bool.false_eq_true, if_false]
      exact ⟨h, fun c r => by simp⟩

theorem daemonTimerPhase_resends (rng : List Nat) (timer : WriteTimer) (e f : Bool)
    (h : timerInv timer) :
    (∀ t, (daemonTimerPhase rng timer e f).writeState = some t → timerInv t) ∧
      ∀ c r, (daemonTimerPhase rng timer e f).signal ≠ some (.linkError c r) := by
  have hback : ∀ task retry, timerInv (create_backoff rng task retry).1 := by
    intro task retry
    constructor
    · intro r hr; simp [create_backoff, WriteTimer.mkBackoff, timeoutResends] at hr
    · intro r hr
      simp [create_backoff, WriteTimer.mkBackoff, backoffResends] at hr
      omega
  cases e with
  | false =>
    simp only [daemonTimerPhase, Bool.false_eq_true, if_false]
    exact ⟨fun t ht => by simp at ht; exact ht ▸ h, fun c r => by simp⟩
  | true =>
    cases timer with
    | timeout inner =>
      simp only [daemonTimerPhase, if_true]
      refine ⟨?_, fun c r => by simp⟩
      intro t ht
      simp only [Option.some.injEq] at ht
      exact ht ▸ hback inner.task 0
    | backoff inner retry dur =>
      cases inner with
      | none =>
        simp only [daemonTimerPhase, if_true]
        exact ⟨fun t ht => by simp at ht, fun c r => by simp⟩
      | some inner =>
        have hres : inner.resends = 0 := h.2 inner.resends rfl
        have hnot : ¬ inner.resends > SOCKET_MAX_RESENDS := by
          rw [hres, SOCKET_MAX_RESENDS]; omega
        cases f with
        | false =>
          simp only [daemonTimerPhase, if_true, Bool.not_false, if_pos]
          refine ⟨?_, fun c r => by simp⟩
          intro t ht
          simp only [Option.some.injEq] at ht
          exact ht ▸ hback inner.task (retry + 1)
        | true =>
          simp only [daemonTimerPhase, if_true, Bool.not_true, Bool.false_eq_true, if_false,
            if_neg hnot, write_bits]
          refine ⟨?_, fun c r => by simp⟩
          intro t ht
          simp only [Option.some.injEq] at ht
          refine ht ▸ ⟨?_, ?_⟩
          · intro r hr
            simp [WriteTimer.mkTimeout, timeoutResends] at hr
            omega
          · intro r hr; simp [WriteTimer.mkTimeout, backoffResends] at hr

theorem daemonEnqueuePhase_resends (rng : List Nat) (f : Bool) (incoming : Option WriteTask) :
    (∀ t, (daemonEnqueuePhase rng f incoming).writeState = some t → timerInv t) ∧
      ∀ c r, (daemonEnqueuePhase rng f incoming).signal ≠ some (.linkError c r) := by
  have hback : ∀ task retry, timerInv (create_backoff rng task retry).1 := by
    intro task retry
    constructor
    · intro r hr; simp [create_backoff, WriteTimer.mkBackoff, timeoutResends] at hr
    · intro r hr
      simp [create_backoff, WriteTimer.mkBackoff, backoffResends] at hr
      omega
  cases incoming with
  | none =>
    simp only [daemonEnqueuePhase]
    exact ⟨fun t ht => by simp at ht, fun c r => by simp⟩
  | some task =>
    cases f with
    | false =>
      simp only [daemonEnqueuePhase, Bool.not_false, if_pos]
      refine ⟨?_, fun c r => by simp⟩
      intro t ht
      simp only [Option.some.injEq] at ht
      exact ht ▸ hback task 0
    | true =>
      simp only [daemonEnqueuePhase, Bool.not_true, Bool.false_eq_true, if_false, write_bits]
      refine ⟨?_, fun c r => by simp⟩
      intro t ht
      simp only [Option.some.injEq] at ht
      refine ht ▸ ⟨?_, ?_⟩
      · intro r hr
        simp [WriteTimer.mkTimeout, timeoutResends] at hr
        omega
      · intro r hr; simp [WriteTimer.mkTimeout, backoffResends] at hr

theorem daemonStep_resends (address : Nat) (st : DaemonState) (input : StepInput)
    (h : resendsInv st) :
    resendsInv (daemonStep address st input).1 ∧
      ∀ c r, Signal.linkError c r ∉ (daemonStep address st input).2.signals := by
  have hr := daemonRecvPhase_resends address st.rng st.jar st.writeState input.recv h
  rw [daemonStep]
  cases hws : (daemonRecvPhase address st.rng st.jar st.writeState input.recv).writeState with
  | some timer =>
    simp only [hws]
    have hb := daemonTimerPhase_resends
      (daemonRecvPhase address st.rng st.jar st.writeState input.recv).rng timer
      input.expired input.channelFree (hr.1 timer hws)
    refine ⟨fun t ht => hb.1 t ht, ?_⟩
    intro c r hmem
    rcases List.mem_append.mp hmem with hm | hm
    · exact hr.2 c r (by simpa using hm)
    · exact hb.2 c r (by simpa using hm)
  | none =>
    simp only [hws]
    have hc := daemonEnqueuePhase_resends
      (daemonRecvPhase address st.rng st.jar st.writeState input.recv).rng
      input.channelFree input.incoming
    refine ⟨fun t ht => hc.1 t ht, ?_⟩
    intro c r hmem
    rcases List.mem_append.mp hmem with hm | hm
    · exact hr.2 c r (by simpa using hm)
    · exact hc.2 c r (by simpa using hm)

/-- The daemon, started with no pending timer, never signals `LinkError` on
any completion channel, whatever frames, timer expiries, channel states and
tasks it sees: the `LinkError` path of socket.rs is dead code. -/
theorem daemonRun_no_link_error (address : Nat) (jar rng : List Nat)
    (inputs : List StepInput) :
    ∀ o ∈ (daemonRun address ⟨none, jar, rng⟩ inputs).2,
      ∀ c r, Signal.linkError c r ∉ o.signals := by
  have key : ∀ (inputs : List StepInput) (st : DaemonState), resendsInv st →
      ∀ o ∈ (daemonRun address st inputs).2, ∀ c r, Signal.linkError c r ∉ o.signals := by
    intro inputs
    induction inputs with
    | nil => intro st _ o ho; simp [daemonRun] at ho
    | cons i rest ih =>
      intro st hst o ho
      rw [daemonRun] at ho
      have hstep := daemonStep_resends address st i hst
      rcases List.mem_cons.mp ho with rfl | ho2
      · exact hstep.2
      · exact ih (daemonStep address st i).1 hstep.1 o ho2
  exact key inputs ⟨none, jar, rng⟩ (by intro t ht; simp at ht)

/-! ## Claims C3 and C4: the receive phase -/

/-- Claim C3 (counterexample): a `MacPingReq` frame addressed to this socket
with a fresh sequence number is pushed into the dedup jar and forwarded on
the reader channel, although it is not a `Data` frame — the daemon applies
the jar and the forward to every non-ACK frame. -/
theorem c3_ping_req_forwarded :
    (daemonRecvPhase 1 [] [] none
        (some (.nonAck (MacPingReqFrame.new 1 2)))).forwarded =
      some (MacPingReqFrame.new 1 2) ∧
    (daemonRecvPhase 1 [] [] none
        (some (.nonAck (MacPingReqFrame.new 1 2)))).jar = [0] := by
  decide

/-- Claim C3 (amended): for a received frame addressed to this socket, the
frame is pushed into the jar and forwarded to the reader exactly when it is a
non-ACK frame (`Data` or `MacPingReq`) whose sequence is not already in the
jar; a non-ACK frame whose sequence is in the jar is still acknowledged but
not re-forwarded; `Ack` and `MacPingResp` frames are never forwarded. -/
theorem c3_jar_gates_forwarding (address : Nat) (rng jar : List Nat)
    (ws : Option WriteTimer) (frame : AcsmaFrame) :
    (∀ na, frame = .nonAck na → is_for_self address frame.header = true →
      jar.contains frame.header.seq = false →
      (daemonRecvPhase address rng jar ws (some frame)).forwarded = some na ∧
      (daemonRecvPhase address rng jar ws (some frame)).jar =
        jarPush jar frame.header.seq ∧
      (daemonRecvPhase address rng jar ws (some frame)).resp =
        some (create_resp frame.header na)) ∧
    (∀ na, frame = .nonAck na → is_for_self address frame.header = true →
      jar.contains frame.header.seq = true →
      (daemonRecvPhase address rng jar ws (some frame)).forwarded = none ∧
      (daemonRecvPhase address rng jar ws (some frame)).jar = jar ∧
      (daemonRecvPhase address rng jar ws (some frame)).resp =
        some (create_resp frame.header na)) ∧
    ((∀ na, frame ≠ .nonAck na) →
      (daemonRecvPhase address rng jar ws (some frame)).forwarded = none ∧
      (daemonRecvPhase address rng jar ws (some frame)).jar = jar ∧
      (daemonRecvPhase address rng jar ws (some frame)).resp = none) ∧
    (is_for_self address frame.header = false →
      (daemonRecvPhase address rng jar ws (some frame)).forwarded = none ∧
      (daemonRecvPhase address rng jar ws (some frame)).jar = jar ∧
      (daemonRecvPhase address rng jar ws (some frame)).resp = none) := by
  refine ⟨?_, ?_, ?_, ?_⟩
  · rintro na rfl hself hjar
    have hjar' : (AcsmaFrame.nonAck na).header.seq ∉ jar := by simpa using hjar
    simp [daemonRecvPhase, hself, hjar']
  · rintro na rfl hself hjar
    have hjar' : (AcsmaFrame.nonAck na).header.seq ∈ jar := by simpa using hjar
    simp [daemonRecvPhase, hself, hjar']
  · intro hna
    cases frame with
    | nonAck na => exact absurd rfl (hna na)
    | ack hd =>
      by_cases hself : is_for_self address (AcsmaFrame.ack hd).header = true
      · cases ws <;> simp [daemonRecvPhase, hself]
      · simp only [Bool.not_eq_true] at hself
        simp [daemonRecvPhase, hself]
    | macPingResp hd =>
      by_cases hself : is_for_self address (AcsmaFrame.macPingResp hd).header = true
      · cases ws <;> simp [daemonRecvPhase, hself]
      · simp only [Bool.not_eq_true] at hself
        simp [daemonRecvPhase, hself]
  · intro hself
    simp [daemonRecvPhase, hself]

/-- The inner of a timer holding a pending task (the extraction performed by
`clear_timer`, socket.rs lines 475-481). -/
def timerTaskInner : WriteTimer → Option TimerInner
  | .timeout inner => some inner
  | .backoff (some inner) _ _ => some inner
  | _ => none

theorem clear_timer_spec (rng : List Nat) (header : FrameHeader) (timer : WriteTimer) :
    (∀ inner, timerTaskInner timer = some inner →
      ((inner.task.frame.corresponds header = true ∧
          inner.task.frame.header.seq = header.seq) →
        clear_timer rng header timer =
          (WriteTimer.mkBackoff none 0 (generate_backoff rng 0).1,
            some (.ok inner.task.chan), (generate_backoff rng 0).2)) ∧
      (¬ (inner.task.frame.corresponds header = true ∧
          inner.task.frame.header.seq = header.seq) →
        clear_timer rng header timer = (timer, none, rng))) ∧
    (timerTaskInner timer = none → clear_timer rng header timer = (timer, none, rng)) := by
  have main : ∀ inner, timerTaskInner timer = some inner →
      ((inner.task.frame.corresponds header = true ∧
          inner.task.frame.header.seq = header.seq) →
        clear_timer rng header timer =
          (WriteTimer.mkBackoff none 0 (generate_backoff rng 0).1,
            some (.ok inner.task.chan), (generate_backoff rng 0).2)) ∧
      (¬ (inner.task.frame.corresponds header = true ∧
          inner.task.frame.header.seq = header.seq) →
        clear_timer rng header timer = (timer, none, rng)) := by
    intro inner hinner
    constructor
    · rintro ⟨htype, hseq⟩
      have hcond : (inner.task.frame.corresponds header &&
          (inner.task.frame.header.seq == header.seq)) = true := by
        simp [htype, hseq]
      cases timer with
      | timeout inner' =>
        simp only [timerTaskInner, Option.some.injEq] at hinner
        subst hinner
        simp only [clear_timer, hcond, if_true]
      | backoff oinner retry dur =>
        cases oinner with
        | some inner' =>
          simp only [timerTaskInner, Option.some.injEq] at hinner
          subst hinner
          simp only [clear_timer, hcond, if_true]
        | none => simp [timerTaskInner] at hinner
    · intro hnot
      have hcond : (inner.task.frame.corresponds header &&
          (inner.task.frame.header.seq == header.seq)) = false := by
        rcases Bool.eq_false_or_eq_true (inner.task.frame.corresponds header &&
          (inner.task.frame.header.seq == header.seq)) with ht | hf
        · exfalso
          apply hnot
          simp only [Bool.and_eq_true, beq_iff_eq] at ht
          exact ht
        · exact hf
      cases timer with
      | timeout inner' =>
        simp only [timerTaskInner, Option.some.injEq] at hinner
        subst hinner
        simp only [clear_timer, hcond, Bool.false_eq_true, if_false]
      | backoff oinner retry dur =>
        cases oinner with
        | some inner' =>
          simp only [timerTaskInner, Option.some.injEq] at hinner
          subst hinner
          simp only [clear_timer, hcond, Bool.false_eq_true, if_false]
        | none => simp [timerTaskInner] at hinner
  refine ⟨main, ?_⟩
  intro hnone
  cases timer with
  | timeout inner => simp [timerTaskInner] at hnone
  | backoff oinner retry dur =>
    cases oinner with
    | some inner => simp [timerTaskInner] at hnone
    | none => simp only [clear_timer]

/-- Claim C4: when the daemon receives an `Ack` or `MacPingResp` addressed to
itself while a write timer holds a pending task whose frame corresponds to
the received header (matching type family and equal sequence), it signals the
task's completion channel `Ok` and the resulting timer holds no task (a
task-free back-off window); when the type family or sequence do not match, or
the timer holds no task, the timer is left unchanged and nothing is
signalled.  The jar is untouched and nothing is forwarded. -/
theorem c4_ack_clears_timer (address : Nat) (rng jar : List Nat) (timer : WriteTimer)
    (frame : AcsmaFrame) (hnotna : ∀ na, frame ≠ .nonAck na)
    (hself : is_for_self address frame.header = true) :
    (∀ inner, timerTaskInner timer = some inner →
      ((inner.task.frame.corresponds frame.header = true ∧
          inner.task.frame.header.seq = frame.header.seq) →
        ∃ dur,
          (daemonRecvPhase address rng jar (some timer) (some frame)).writeState =
            some (WriteTimer.backoff none 0 dur) ∧
          (daemonRecvPhase address rng jar (some timer) (some frame)).signal =
            some (.ok inner.task.chan)) ∧
      (¬ (inner.task.frame.corresponds frame.header = true ∧
          inner.task.frame.header.seq = frame.header.seq) →
        (daemonRecvPhase address rng jar (some timer) (some frame)).writeState =
          some timer ∧
        (daemonRecvPhase address rng jar (some timer) (some frame)).signal = none)) ∧
    (timerTaskInner timer = none →
      (daemonRecvPhase address rng jar (some timer) (some frame)).writeState = some timer ∧
      (daemonRecvPhase address rng jar (some timer) (some frame)).signal = none) ∧
    (daemonRecvPhase address rng jar (some timer) (some frame)).jar = jar ∧
    (daemonRecvPhase address rng jar (some timer) (some frame)).forwarded = none := by
  have hspec := clear_timer_spec rng frame.header timer
  cases frame with
  | nonAck na => exact absurd rfl (hnotna na)
  | ack hd =>
    simp only [daemonRecvPhase, hself, if_true]
    refine ⟨?_, ?_, by trivial, by trivial⟩
    · intro inner hinner
      constructor
      · intro hmatch
        rw [(hspec.1 inner hinner).1 hmatch]
        exact ⟨(generate_backoff rng 0).1, by trivial, by trivial⟩
      · intro hnot
        rw [(hspec.1 inner hinner).2 hnot]
        exact ⟨by trivial, by trivial⟩
    · intro hnone
      rw [hspec.2 hnone]
      exact ⟨by trivial, by trivial⟩
  | macPingResp hd =>
    simp only [daemonRecvPhase, hself, if_true]
    refine ⟨?_, ?_, by trivial, by trivial⟩
    · intro inner hinner
      constructor
      · intro hmatch
        rw [(hspec.1 inner hinner).1 hmatch]
        exact ⟨(generate_backoff rng 0).1, by trivial, by trivial⟩
      · intro hnot
        rw [(hspec.1 inner hinner).2 hnot]
        exact ⟨by trivial, by trivial⟩
    · intro hnone
      rw [hspec.2 hnone]
      exact ⟨by trivial, by trivial⟩

/-- Witness for C4 at a concrete matching Ack. -/
theorem c4_ack_clears_timer_witness :
    (∀ na, AckFrame.new 1 2 5 ≠ AcsmaFrame.nonAck na) ∧
      is_for_self 1 (AckFrame.new 1 2 5).header = true ∧
      (∀ inner, timerTaskInner (WriteTimer.mkTimeout ⟨DataFrame.new 2 1 5 false [true], 9⟩ 0) =
          some inner →
        ((inner.task.frame.corresponds (AckFrame.new 1 2 5).header = true ∧
            inner.task.frame.header.seq = (AckFrame.new 1 2 5).header.seq) →
          ∃ dur,
            (daemonRecvPhase 1 [] [3] (some (WriteTimer.mkTimeout
                ⟨DataFrame.new 2 1 5 false [true], 9⟩ 0)) (some (AckFrame.new 1 2 5))).writeState =
              some (WriteTimer.backoff none 0 dur) ∧
            (daemonRecvPhase 1 [] [3] (some (WriteTimer.mkTimeout
                ⟨DataFrame.new 2 1 5 false [true], 9⟩ 0)) (some (AckFrame.new 1 2 5))).signal =
              some (.ok inner.task.chan)) ∧
        (¬ (inner.task.frame.corresponds (AckFrame.new 1 2 5).header = true ∧
            inner.task.frame.header.seq = (AckFrame.new 1 2 5).header.seq) →
          (daemonRecvPhase 1 [] [3] (some (WriteTimer.mkTimeout
              ⟨DataFrame.new 2 1 5 false [true], 9⟩ 0)) (some (AckFrame.new 1 2 5))).writeState =
            some (WriteTimer.mkTimeout ⟨DataFrame.new 2 1 5 false [true], 9⟩ 0) ∧
          (daemonRecvPhase 1 [] [3] (some (WriteTimer.mkTimeout
              ⟨DataFrame.new 2 1 5 false [true], 9⟩ 0)) (some (AckFrame.new 1 2 5))).signal =
            none)) ∧
      (timerTaskInner (WriteTimer.mkTimeout ⟨DataFrame.new 2 1 5 false [true], 9⟩ 0) = none →
        (daemonRecvPhase 1 [] [3] (some (WriteTimer.mkTimeout
            ⟨DataFrame.new 2 1 5 false [true], 9⟩ 0)) (some (AckFrame.new 1 2 5))).writeState =
          some (WriteTimer.mkTimeout ⟨DataFrame.new 2 1 5 false [true], 9⟩ 0) ∧
        (daemonRecvPhase 1 [] [3] (some (WriteTimer.mkTimeout
            ⟨DataFrame.new 2 1 5 false [true], 9⟩ 0)) (some (AckFrame.new 1 2 5))).signal =
          none) ∧
      (daemonRecvPhase 1 [] [3] (some (WriteTimer.mkTimeout
          ⟨DataFrame.new 2 1 5 false [true], 9⟩ 0)) (some (AckFrame.new 1 2 5))).jar = [3] ∧
      (daemonRecvPhase 1 [] [3] (some (WriteTimer.mkTimeout
          ⟨DataFrame.new 2 1 5 false [true], 9⟩ 0)) (some (AckFrame.new 1 2 5))).forwarded =
        none :=
  by
  refine ⟨?_, ?_, ?_⟩
  · intro na h
    cases h
  · decide
  · exact c4_ack_clears_timer 1 [] [3]
      (WriteTimer.mkTimeout ⟨DataFrame.new 2 1 5 false [true], 9⟩ 0)
      (AckFrame.new 1 2 5) (fun na h => by cases h) (by decide)

/-! ## Claim C8: back-off bounds -/

/-- Claim C8: for every retry count and every RNG state, the back-off
duration produced by `generate_backoff` equals `k * SOCKET_SLOT_TIMEOUT` for
some `k` with `0 ≤ k ≤ min (2 ^ retry) SOCKET_MAX_RANGE`. -/
theorem c8_backoff_bounds (rng : List Nat) (factor : Nat) :
    ∃ k, k ≤ min (2 ^ factor) SOCKET_MAX_RANGE ∧
      (generate_backoff rng factor).1 = k * SOCKET_SLOT_TIMEOUT := by
  have hshift : (1 <<< (factor % 64)) = 2 ^ (factor % 64) := by
    rw [Nat.shiftLeft_eq, one_mul]
  have hle : 2 ^ (factor % 64) ≤ 2 ^ factor :=
    Nat.pow_le_pow_right (by omega) (Nat.mod_le factor 64)
  rw [generate_backoff]
  set range := if 1 <<< (factor % 64) > SOCKET_MAX_RANGE then SOCKET_MAX_RANGE
    else 1 <<< (factor % 64) with hrange
  have hbound : range ≤ min (2 ^ factor) SOCKET_MAX_RANGE := by
    rw [hrange]
    by_cases hcase : 1 <<< (factor % 64) > SOCKET_MAX_RANGE
    · rw [if_pos hcase]
      rw [hshift] at hcase
      have h16 : SOCKET_MAX_RANGE < 2 ^ factor := lt_of_lt_of_le hcase hle
      exact le_min (by omega) (le_refl _)
    · rw [if_neg hcase]
      rw [hshift] at hcase ⊢
      push_neg at hcase
      exact le_min hle hcase
  cases rng with
  | nil =>
    exact ⟨0, by omega, by simp [genRangeIncl]⟩
  | cons r rest =>
    refine ⟨r % (range + 1), ?_, by simp [genRangeIncl]⟩
    have : r % (range + 1) < range + 1 := Nat.mod_lt _ (by omega)
    omega

/-! ## Claims C5 and C10: the writer's packetization -/

/-- Claim C5 (counterexample): for the empty bit vector, `encode_packet`
produces no frames at all, so no frame — in particular not exactly one —
carries the `EOP` flag. -/
theorem c5_empty_packet_has_no_eop :
    encode_packet 0 [] 1 2 = [] ∧
      ¬ ∃ f ∈ encode_packet 0 ([] : List Bool) 1 2, f.header.eop = true := by
  constructor
  · simp [encode_packet, chunks, chunksAux]
  · rintro ⟨f, hf, _⟩
    simp [encode_packet, chunks, chunksAux] at hf

/-- Claim C5 (amended): for every nonempty bit vector, the Data frames
produced by `encode_packet` carry the sequence numbers `base, base + 1, ...`,
strictly increasing by one per frame, and the `EOP` flag is set exactly on
the last frame. -/
theorem c5_seq_and_eop (base : Nat) (bits : List Bool) (hne : bits ≠ [])
    (src dest : Nat) :
    ((encode_packet base bits src dest).map fun f => f.header.seq) =
      (List.range (chunks PAYLOAD_BITS_LEN bits).length).map (base + ·) ∧
    ((encode_packet base bits src dest).map fun f => f.header.eop) =
      (List.range (chunks PAYLOAD_BITS_LEN bits).length).map
        (fun i => decide (i = (chunks PAYLOAD_BITS_LEN bits).length - 1)) ∧
    0 < (chunks PAYLOAD_BITS_LEN bits).length := by
  have hpos : 0 < (chunks PAYLOAD_BITS_LEN bits).length := by
    cases bits with
    | nil => exact absurd rfl hne
    | cons a t =>
      show 0 < (chunksAux (PAYLOAD_BITS_LEN - 1) (a :: t)).length
      rw [chunksAux_cons]
      simp
  refine ⟨?_, ?_, hpos⟩
  · rw [encode_packet, List.map_map]
    have : ((fun f => (NonAckFrame.header f).seq) ∘ fun pair =>
        DataFrame.new dest src (base + pair.1)
          (decide (pair.1 = (chunks PAYLOAD_BITS_LEN bits).length - 1)) pair.2) =
        (fun pair : Nat × List Bool => base + pair.1) := by
      funext pair
      rfl
    rw [this]
    have hcomp : (fun pair : Nat × List Bool => base + pair.1) =
        ((base + ·) ∘ Prod.fst) := rfl
    rw [hcomp, ← List.map_map, List.enum_map_fst]
  · rw [encode_packet, List.map_map]
    have : ((fun f => (NonAckFrame.header f).eop) ∘ fun pair =>
        DataFrame.new dest src (base + pair.1)
          (decide (pair.1 = (chunks PAYLOAD_BITS_LEN bits).length - 1)) pair.2) =
        ((fun i => decide (i = (chunks PAYLOAD_BITS_LEN bits).length - 1)) ∘ Prod.fst) := by
      funext pair
      rfl
    rw [this, ← List.map_map, List.enum_map_fst]

/-- Witness for C5 (amended) at a concrete bit vector. -/
theorem c5_seq_and_eop_witness :
    ([true] ≠ ([] : List Bool)) ∧
      (((encode_packet 7 [true] 1 2).map fun f => f.header.seq) =
        (List.range (chunks PAYLOAD_BITS_LEN [true]).length).map (7 + ·) ∧
      ((encode_packet 7 [true] 1 2).map fun f => f.header.eop) =
        (List.range (chunks PAYLOAD_BITS_LEN [true]).length).map
          (fun i => decide (i = (chunks PAYLOAD_BITS_LEN [true]).length - 1)) ∧
      0 < (chunks PAYLOAD_BITS_LEN [true]).length) :=
  ⟨by decide, c5_seq_and_eop 7 [true] (by decide) 1 2⟩

/-- The number of payload chunks never exceeds the number of bits. -/
theorem chunks_length_le (bits : List Bool) (hne : bits ≠ []) :
    (chunks PAYLOAD_BITS_LEN bits).length ≤ bits.length := by
  have hPB : PAYLOAD_BITS_LEN = 120 := rfl
  rw [hPB, chunks]
  rw [chunksAux_length 119 bits.length bits (le_refl _)]
  have hpos : 0 < bits.length := List.length_pos.mpr hne
  have h1 : (bits.length + 119) / (119 + 1) ≤ (bits.length + 119) / 1 := by
    exact Nat.div_le_div_left (by omega) (by omega)
  omega

/-- Claim C10: `encode_packet` draws the base sequence from
`[0, 2^SEQ_BITS_LEN - bits.len())`.  When `bits.len() < 2^SEQ_BITS_LEN` the
draw succeeds and every assigned sequence number `base + i` is below
`2^SEQ_BITS_LEN`; when `bits.len() ≥ 2^SEQ_BITS_LEN` the range is empty or
the subtraction overflows and the call panics (modelled as `none`). -/
theorem c10_sequence_draw (seqBits rngDraw : Nat) (bits : List Bool) (src dest : Nat) :
    (bits.length < 2 ^ seqBits →
      ∃ frames, encode_packet_checked seqBits rngDraw bits src dest = some frames ∧
        ∀ f ∈ frames, f.header.seq < 2 ^ seqBits) ∧
    (2 ^ seqBits ≤ bits.length →
      encode_packet_checked seqBits rngDraw bits src dest = none) := by
  constructor
  · intro hlt
    rw [encode_packet_checked, drawBase, if_pos hlt]
    refine ⟨_, rfl, ?_⟩
    intro f hf
    simp only [encode_packet, List.mem_map] at hf
    obtain ⟨pair, hpair, rfl⟩ := hf
    have hidx : pair.1 < (chunks PAYLOAD_BITS_LEN bits).length :=
      List.fst_lt_of_mem_enum hpair
    have hbase : rngDraw % (2 ^ seqBits - bits.length) < 2 ^ seqBits - bits.length :=
      Nat.mod_lt _ (by omega)
    show rngDraw % (2 ^ seqBits - bits.length) + pair.1 < 2 ^ seqBits
    cases hbits : bits with
    | nil =>
      subst hbits
      simp [chunks, chunksAux] at hidx
    | cons a t =>
      have hle := chunks_length_le bits (by rw [hbits]; simp)
      rw [← hbits]
      have hpos : 0 < bits.length := by rw [hbits]; simp
      omega
  · intro hge
    rw [encode_packet_checked, drawBase, if_neg (by omega)]
    rfl

/-- Witness for C10 at concrete parameters (both branches exercised). -/
theorem c10_sequence_draw_witness :
    (([true, false].length < 2 ^ 4 →
      ∃ frames, encode_packet_checked 4 11 [true, false] 1 2 = some frames ∧
        ∀ f ∈ frames, f.header.seq < 2 ^ 4) ∧
    (2 ^ 4 ≤ [true, false].length →
      encode_packet_checked 4 11 [true, false] 1 2 = none)) ∧
    (2 ^ 0 ≤ [true, false].length →
      encode_packet_checked 0 11 [true, false] 1 2 = none) :=
  ⟨c10_sequence_draw 4 11 [true, false] 1 2,
    (c10_sequence_draw 0 11 [true, false] 1 2).2⟩

/-! ## Claim C9: the ather input task state machine
(stream.rs lines 186-304) -/

/-- `AtherInputTaskState` (stream.rs lines 262-267); the waker is modelled by
an identifier. -/
inductive TaskState where
  | pending
  | running (waker : Nat)
  | completed (bits : List Bool)
  | suspended (buffered : Option (List Bool))
  deriving Repr, DecidableEq

/-- Result of `poll_next`. -/
inductive PollRes where
  | pollPending
  | readySome (bits : List Bool)
  | readyNone
  deriving Repr, DecidableEq

/-- `AtherInputStream::poll_next` (stream.rs lines 278-303): returns the new
task state, the poll result, and whether a `Running` command was sent to the
decode task. -/
def poll_next (s : TaskState) (waker : Nat) : TaskState × PollRes × Bool :=
  match s with
  | .pending => (.running waker, .pollPending, true)
  | .running _ => (.running waker, .pollPending, false)
  | .completed bits => (.pending, .readySome bits, false)
  | .suspended (some bits) => (.suspended none, .readySome bits, false)
  | .suspended none => (.suspended none, .readyNone, false)

/-- Handling of the `Running` command in the input task (stream.rs lines
201-217): on a decoded packet, a `Running` state becomes `Completed` and the
stored waker is woken; when `decode_packet` returns `None` (the sample source
closed), the buffer is cleared and the state is left untouched, waking
nobody.  The Boolean records whether a waker was woken. -/
def handleRunningCmd (s : TaskState) (decoded : Option (List Bool)) : TaskState × Bool :=
  match decoded with
  | some bits =>
    match s with
    | .running _ => (.completed bits, true)
    | other => (other, false)
  | none => (s, false)

/-- Handling of the `Suspended` command (stream.rs lines 218-231). -/
def handleSuspendCmd (s : TaskState) : TaskState × Bool :=
  match s with
  | .running _ => (.suspended none, true)
  | .completed bits => (.suspended (some bits), false)
  | other => (other, false)

/-- Handling of the `Resume` command (stream.rs lines 232-245). -/
def handleResumeCmd (s : TaskState) : TaskState :=
  match s with
  | .suspended (some bits) => .completed bits
  | .suspended none => .pending
  | other => other

/-- Claim C9 (counterexample): when the sample source closes while a poll is
pending (state `Running`), the decode task leaves the state untouched and
wakes nobody, and the next `poll_next` returns `Pending` — not `Ready(None)`
as the claim requires. -/
theorem c9_close_leaves_stream_pending :
    (handleRunningCmd (.running 0) none).1 = TaskState.running 0 ∧
    (handleRunningCmd (.running 0) none).2 = false ∧
    (poll_next (handleRunningCmd (.running 0) none).1 1).2.1 = PollRes.pollPending ∧
    (poll_next (handleRunningCmd (.running 0) none).1 1).2.1 ≠ PollRes.readyNone := by
  decide

/-- Claim C9 (amended): when the sample source closes, the in-flight decode
returns `None` and the input task merely clears its buffer: the task state is
unchanged and no waker is woken, so every subsequent `poll_next` in the
`Running` state returns `Pending` — the stream never terminates with
`Ready(None)` on source closure.  `Ready(None)` arises only from the
`Suspended` state with no buffered result (an explicit `suspend` call); a
previously completed in-flight result is still delivered by `poll_next` from
the `Completed` state. -/
theorem c9_close_behavior (w w' : Nat) (bits : List Bool) :
    handleRunningCmd (.running w) none = (.running w, false) ∧
    (poll_next (.running w) w').2.1 = PollRes.pollPending ∧
    (∀ s : TaskState, (poll_next s w').2.1 = PollRes.readyNone ↔ s = .suspended none) ∧
    (poll_next (.completed bits) w').2.1 = PollRes.readySome bits := by
  refine ⟨rfl, rfl, ?_, rfl⟩
  intro s
  cases s with
  | pending => simp [poll_next]
  | running w0 => simp [poll_next]
  | completed b => simp [poll_next]
  | suspended buf =>
    cases buf with
    | none => simp [poll_next]
    | some b => simp [poll_next]

/-! ## Claim C6: the reader's reassembly (socket.rs lines 65-90) -/

/-- Payload of a non-ACK frame (`DataFrame::payload`); ping requests carry
none. -/
def NonAckFrame.payloadOf : NonAckFrame → List Bool
  | .data _ p => p
  | .macPingReq _ => []

/-- The `BTreeMap` of `AcsmaSocketReader::read`, as a key-sorted association
list; `bucket.entry(seq).or_insert(payload)` keeps the first payload for a
sequence number. -/
def bucketInsert (bucket : List (Nat × List Bool)) (seq : Nat) (payload : List Bool) :
    List (Nat × List Bool) :=
  match bucket with
  | [] => [(seq, payload)]
  | (k, v) :: rest =>
    if seq < k then (seq, payload) :: (k, v) :: rest
    else if seq = k then (k, v) :: rest
    else (k, v) :: bucketInsert rest seq payload

/-- The receive loop of `AcsmaSocketReader::read` (socket.rs lines 67-80):
drain the channel; for frames whose header source matches, accumulate Data
payloads into the bucket (first payload per seq kept) and stop after the
first such Data frame carrying `EOP`. -/
def readLoop (src : Nat) : List NonAckFrame → List (Nat × List Bool) → List (Nat × List Bool)
  | [], bucket => bucket
  | frame :: rest, bucket =>
    if frame.header.src == src then
      match frame with
      | .data h p =>
        let bucket' := bucketInsert bucket h.seq p
        if h.eop then bucket' else readLoop src rest bucket'
      | .macPingReq _ => readLoop src rest bucket
    else readLoop src rest bucket

/-- `AcsmaSocketReader::read` (socket.rs lines 65-90) over the list of frames
delivered on the reader channel: the concatenation of the bucket's payloads
in ascending key order. -/
def read (src : Nat) (frames : List NonAckFrame) : List Bool :=
  ((readLoop src frames []).map Prod.snd).flatten

/-- Specification-side predicate: a Data frame from the given source. -/
def isDataFrom (src : Nat) (f : NonAckFrame) : Bool :=
  (f.header.src == src) &&
    (match f with
     | .data _ _ => true
     | .macPingReq _ => false)

/-- Specification-side predicate: the frame at which `read` terminates. -/
def stopsAt (src : Nat) (f : NonAckFrame) : Bool := isDataFrom src f && f.header.eop

/-- Specification-side: the frames processed before termination, including
the terminating frame. -/
def takeToEop (src : Nat) : List NonAckFrame → List NonAckFrame
  | [] => []
  | f :: rest => if stopsAt src f then [f] else f :: takeToEop src rest

/-- Specification-side: the (seq, payload) pairs of the relevant Data
frames, in arrival order. -/
def framePairs (src : Nat) (frames : List NonAckFrame) : List (Nat × List Bool) :=
  ((takeToEop src frames).filter (isDataFrom src)).map fun f =>
    (f.header.seq, f.payloadOf)

/-- Specification-side: keep the first pair for every sequence number. -/
def firstBySeq : List (Nat × List Bool) → List (Nat × List Bool)
  | [] => []
  | (k, v) :: rest => (k, v) :: firstBySeq (rest.filter fun p => p.1 ≠ k)
termination_by l => l.length
decreasing_by
  have := List.length_filter_le (fun p : Nat × List Bool => decide (p.1 ≠ k)) rest
  simp only [List.length_cons]
  omega

/-- Specification-side reading: the first payload received for each sequence
number among the Data frames from `src` up to and including the first one
flagged `EOP`, concatenated in increasing sequence order. -/
def specRead (src : Nat) (frames : List NonAckFrame) : List Bool :=
  (((firstBySeq (framePairs src frames)).mergeSort
      (fun a b => decide (a.1 ≤ b.1))).map Prod.snd).flatten

/-- First payload stored under a key. -/
def lookupKey (l : List (Nat × List Bool)) (s : Nat) : Option (List Bool) :=
  (l.find? fun p => p.1 == s).map Prod.snd

theorem readLoop_cons (src : Nat) (frame : NonAckFrame) (rest : List NonAckFrame)
    (bucket : List (Nat × List Bool)) :
    readLoop src (frame :: rest) bucket =
      if frame.header.src == src then
        match frame with
        | .data h p =>
          if h.eop then bucketInsert bucket h.seq p
          else readLoop src rest (bucketInsert bucket h.seq p)
        | .macPingReq _ => readLoop src rest bucket
      else readLoop src rest bucket := by
  rw [readLoop.eq_def]

theorem firstBySeq_nil : firstBySeq [] = [] := by
  rw [firstBySeq]

theorem firstBySeq_cons (k : Nat) (v : List Bool) (rest : List (Nat × List Bool)) :
    firstBySeq ((k, v) :: rest) = (k, v) :: firstBySeq (rest.filter fun p => p.1 ≠ k) := by
  rw [firstBySeq]

theorem readLoop_foldl (src : Nat) :
    ∀ (frames : List NonAckFrame) (bucket : List (Nat × List Bool)),
      readLoop src frames bucket =
        (framePairs src frames).foldl (fun b p => bucketInsert b p.1 p.2) bucket := by
  intro frames
  induction frames with
  | nil => intro bucket; simp [readLoop, framePairs, takeToEop]
  | cons f rest ih =>
    intro bucket
    rw [readLoop_cons]
    by_cases hsrc : (f.header.src == src) = true
    · rw [if_pos hsrc]
      cases f with
      | data h p =>
        have hdf : isDataFrom src (.data h p) = true := by
          simp only [isDataFrom, NonAckFrame.header] at hsrc ⊢
          simp [hsrc]
        by_cases heop : h.eop = true
        · have hstop : stopsAt src (.data h p) = true := by
            simp only [stopsAt, hdf, Bool.true_and, NonAckFrame.header]
            exact heop
          simp only [heop, if_true]
          rw [framePairs, takeToEop, if_pos hstop]
          simp [hdf, NonAckFrame.header, NonAckFrame.payloadOf]
        · have hstop : stopsAt src (.data h p) = false := by
            simp only [stopsAt, hdf, Bool.true_and, NonAckFrame.header]
            simpa using heop
          simp only [heop, Bool.false_eq_true, if_false]
          rw [framePairs, takeToEop, if_neg (by simp [hstop])]
          rw [List.filter_cons_of_pos hdf]
          simp only [List.map_cons, List.foldl_cons]
          rw [ih]
          rfl
      | macPingReq h =>
        have hdf : isDataFrom src (.macPingReq h) = false := by
          simp [isDataFrom]
        have hstop : stopsAt src (.macPingReq h) = false := by
          simp [stopsAt, hdf]
        rw [framePairs, takeToEop, if_neg (by simp [hstop])]
        rw [List.filter_cons_of_neg (by simp [hdf])]
        rw [ih]
        rfl
    · rw [if_neg hsrc]
      simp only [Bool.not_eq_true] at hsrc
      have hdf : isDataFrom src f = false := by
        simp only [isDataFrom, hsrc, Bool.false_and]
      have hstop : stopsAt src f = false := by simp [stopsAt, hdf]
      rw [framePairs, takeToEop, if_neg (by simp [hstop])]
      rw [List.filter_cons_of_neg (by simp [hdf])]
      rw [ih]
      rfl

theorem lookupKey_nil (s : Nat) : lookupKey [] s = none := rfl

theorem lookupKey_cons_pos (k : Nat) (v : List Bool) (rest : List (Nat × List Bool)) :
    lookupKey ((k, v) :: rest) k = some v := by
  rw [lookupKey, List.find?_cons_of_pos _ (by simp)]
  rfl

theorem lookupKey_cons_neg (k : Nat) (v : List Bool) (rest : List (Nat × List Bool))
    (s : Nat) (h : s ≠ k) : lookupKey ((k, v) :: rest) s = lookupKey rest s := by
  rw [lookupKey, List.find?_cons_of_neg _ (by simp [beq_iff_eq]; exact fun h2 => h h2.symm)]
  rfl

theorem lookupKey_eq_none (l : List (Nat × List Bool)) (s : Nat)
    (h : ∀ p ∈ l, p.1 ≠ s) : lookupKey l s = none := by
  have hf : l.find? (fun p => p.1 == s) = none :=
    List.find?_eq_none.mpr (fun x hx => by simp [beq_iff_eq]; exact h x hx)
  rw [lookupKey, hf]
  rfl

theorem lookup_bucketInsert (b : List (Nat × List Bool)) (k : Nat) (v : List Bool) (s : Nat)
    (hb : b.Pairwise (fun a b => a.1 < b.1)) :
    lookupKey (bucketInsert b k v) s =
      if s = k then some ((lookupKey b k).getD v) else lookupKey b s := by
  induction b with
  | nil =>
    by_cases hs : s = k
    · subst hs
      simp only [bucketInsert, if_pos rfl, lookupKey_nil, Option.getD_none]
      exact lookupKey_cons_pos s v []
    · simp only [bucketInsert, if_neg hs]
      rw [lookupKey_cons_neg _ _ _ _ hs]
  | cons hd rest ih =>
    obtain ⟨k0, v0⟩ := hd
    have hhead := List.pairwise_cons.mp hb
    rw [bucketInsert.eq_def]
    simp only
    rcases lt_trichotomy k k0 with hlt | heq | hgt
    · rw [if_pos hlt]
      have hnone : lookupKey ((k0, v0) :: rest) k = none := by
        refine lookupKey_eq_none _ _ ?_
        intro p hp
        rcases List.mem_cons.mp hp with rfl | hm
        · simp only
          omega
        · have := hhead.1 p hm
          omega
      by_cases hs : s = k
      · subst hs
        rw [lookupKey_cons_pos, if_pos rfl, hnone]
        rfl
      · rw [lookupKey_cons_neg _ _ _ _ hs, if_neg hs]
    · subst heq
      rw [if_neg (by omega), if_pos rfl]
      by_cases hs : s = k
      · subst hs
        rw [lookupKey_cons_pos, if_pos rfl]
        rfl
      · rw [if_neg hs]
    · rw [if_neg (by omega), if_neg (by omega)]
      by_cases hs0 : s = k0
      · subst hs0
        rw [lookupKey_cons_pos, if_neg (by omega), lookupKey_cons_pos]
      · rw [lookupKey_cons_neg _ _ _ _ hs0, ih hhead.2]
        by_cases hs : s = k
        · subst hs
          rw [if_pos rfl, if_pos rfl, lookupKey_cons_neg _ _ _ _ (by omega)]
        · rw [if_neg hs, if_neg hs, lookupKey_cons_neg _ _ _ _ hs0]

theorem bucketInsert_mem_or (b : List (Nat × List Bool)) (k : Nat) (v : List Bool)
    (x : Nat × List Bool) (hx : x ∈ bucketInsert b k v) : x = (k, v) ∨ x ∈ b := by
  induction b with
  | nil => simpa [bucketInsert] using hx
  | cons hd rest ih =>
    obtain ⟨k0, v0⟩ := hd
    rw [bucketInsert.eq_def] at hx
    simp only at hx
    rcases lt_trichotomy k k0 with hlt | heq | hgt
    · rw [if_pos hlt] at hx
      rcases List.mem_cons.mp hx with rfl | hx2
      · exact Or.inl rfl
      · exact Or.inr hx2
    · subst heq
      rw [if_neg (by omega), if_pos rfl] at hx
      exact Or.inr hx
    · rw [if_neg (by omega), if_neg (by omega)] at hx
      rcases List.mem_cons.mp hx with rfl | hx2
      · exact Or.inr (List.mem_cons_self _ _)
      · rcases ih hx2 with h | h
        · exact Or.inl h
        · exact Or.inr (List.mem_cons_of_mem _ h)

theorem bucketInsert_pairwise (b : List (Nat × List Bool)) (k : Nat) (v : List Bool)
    (hb : b.Pairwise (fun a b => a.1 < b.1)) :
    (bucketInsert b k v).Pairwise (fun a b => a.1 < b.1) := by
  induction b with
  | nil => simp [bucketInsert]
  | cons hd rest ih =>
    obtain ⟨k0, v0⟩ := hd
    have hhead := List.pairwise_cons.mp hb
    rw [bucketInsert.eq_def]
    simp only
    rcases lt_trichotomy k k0 with hlt | heq | hgt
    · rw [if_pos hlt]
      refine List.Pairwise.cons ?_ hb
      intro y hy
      rcases List.mem_cons.mp hy with rfl | hy2
      · exact hlt
      · exact lt_trans hlt (hhead.1 y hy2)
    · subst heq
      rw [if_neg (by omega), if_pos rfl]
      exact hb
    · rw [if_neg (by omega), if_neg (by omega)]
      refine List.Pairwise.cons ?_ (ih hhead.2)
      intro y hy
      rcases bucketInsert_mem_or rest k v y hy with rfl | hy2
      · exact hgt
      · exact hhead.1 y hy2

theorem foldl_bucketInsert_pairwise :
    ∀ (pairs : List (Nat × List Bool)) (b : List (Nat × List Bool)),
      b.Pairwise (fun a b => a.1 < b.1) →
      (pairs.foldl (fun b p => bucketInsert b p.1 p.2) b).Pairwise (fun a b => a.1 < b.1) := by
  intro pairs
  induction pairs with
  | nil => intro b hb; exact hb
  | cons hd rest ih =>
    intro b hb
    exact ih _ (bucketInsert_pairwise b hd.1 hd.2 hb)

theorem lookup_foldl :
    ∀ (pairs : List (Nat × List Bool)) (b : List (Nat × List Bool)),
      b.Pairwise (fun a b => a.1 < b.1) → ∀ (s : Nat),
      lookupKey (pairs.foldl (fun b p => bucketInsert b p.1 p.2) b) s =
        match lookupKey b s with
        | some w => some w
        | none => lookupKey pairs s := by
  intro pairs
  induction pairs with
  | nil =>
    intro b _ s
    cases h : lookupKey b s <;> simp [List.foldl_nil, h, lookupKey_nil]
  | cons hd rest ih =>
    intro b hb s
    obtain ⟨k, v⟩ := hd
    simp only [List.foldl_cons]
    rw [ih (bucketInsert b k v) (bucketInsert_pairwise b k v hb) s,
      lookup_bucketInsert b k v s hb]
    by_cases hs : s = k
    · subst hs
      rw [if_pos rfl]
      cases h : lookupKey b s with
      | some w => simp [h]
      | none =>
        simp only [h, Option.getD_none]
        rw [lookupKey_cons_pos]
    · rw [if_neg hs]
      cases h : lookupKey b s with
      | some w => rfl
      | none =>
        simp only
        rw [lookupKey_cons_neg _ _ _ _ hs]

theorem lookup_filter_ne (rest : List (Nat × List Bool)) (k s : Nat) (h : s ≠ k) :
    lookupKey (rest.filter fun p => p.1 ≠ k) s = lookupKey rest s := by
  induction rest with
  | nil => rfl
  | cons hd tl ih =>
    obtain ⟨k0, v0⟩ := hd
    by_cases hk0 : k0 = k
    · subst hk0
      rw [List.filter_cons_of_neg (by simp)]
      rw [ih, lookupKey_cons_neg _ _ _ _ (by omega)]
    · rw [List.filter_cons_of_pos (by simpa using hk0)]
      by_cases hs0 : s = k0
      · subst hs0
        rw [lookupKey_cons_pos, lookupKey_cons_pos]
      · rw [lookupKey_cons_neg _ _ _ _ hs0, lookupKey_cons_neg _ _ _ _ hs0]
        exact ih

theorem firstBySeq_lookup :
    ∀ (n : Nat) (pairs : List (Nat × List Bool)), pairs.length ≤ n →
      ∀ s, lookupKey (firstBySeq pairs) s = lookupKey pairs s := by
  intro n
  induction n with
  | zero =>
    intro pairs hlen s
    have hnil : pairs = [] := List.eq_nil_of_length_eq_zero (by omega)
    subst hnil
    rw [firstBySeq_nil]
  | succ n ih =>
    intro pairs hlen s
    cases pairs with
    | nil => rw [firstBySeq_nil]
    | cons hd rest =>
      obtain ⟨k, v⟩ := hd
      rw [firstBySeq_cons]
      by_cases hs : s = k
      · subst hs
        rw [lookupKey_cons_pos, lookupKey_cons_pos]
      · rw [lookupKey_cons_neg _ _ _ _ hs, lookupKey_cons_neg _ _ _ _ hs]
        have hlen2 : (rest.filter fun p => p.1 ≠ k).length ≤ n := by
          have h1 := List.length_filter_le (fun p : Nat × List Bool => decide (p.1 ≠ k)) rest
          simp only [List.length_cons] at hlen
          omega
        rw [ih (rest.filter fun p => p.1 ≠ k) hlen2 s]
        exact lookup_filter_ne rest k s hs

theorem firstBySeq_subset :
    ∀ (n : Nat) (pairs : List (Nat × List Bool)), pairs.length ≤ n →
      ∀ x ∈ firstBySeq pairs, x ∈ pairs := by
  intro n
  induction n with
  | zero =>
    intro pairs hlen x hx
    have hnil : pairs = [] := List.eq_nil_of_length_eq_zero (by omega)
    subst hnil
    rw [firstBySeq_nil] at hx
    exact hx
  | succ n ih =>
    intro pairs hlen x hx
    cases pairs with
    | nil => rw [firstBySeq_nil] at hx; exact hx
    | cons hd rest =>
      obtain ⟨k, v⟩ := hd
      rw [firstBySeq_cons] at hx
      rcases List.mem_cons.mp hx with rfl | hx2
      · exact List.mem_cons_self _ _
      · have hlen2 : (rest.filter fun p => p.1 ≠ k).length ≤ n := by
          have h1 := List.length_filter_le (fun p : Nat × List Bool => decide (p.1 ≠ k)) rest
          simp only [List.length_cons] at hlen
          omega
        have hmem := ih (rest.filter fun p => p.1 ≠ k) hlen2 x hx2
        exact List.mem_cons_of_mem _ (List.mem_of_mem_filter hmem)

theorem firstBySeq_nodup_keys :
    ∀ (n : Nat) (pairs : List (Nat × List Bool)), pairs.length ≤ n →
      (firstBySeq pairs).Pairwise (fun a b => a.1 ≠ b.1) := by
  intro n
  induction n with
  | zero =>
    intro pairs hlen
    have hnil : pairs = [] := List.eq_nil_of_length_eq_zero (by omega)
    subst hnil
    rw [firstBySeq_nil]
    exact List.Pairwise.nil
  | succ n ih =>
    intro pairs hlen
    cases pairs with
    | nil => rw [firstBySeq_nil]; exact List.Pairwise.nil
    | cons hd rest =>
      obtain ⟨k, v⟩ := hd
      rw [firstBySeq_cons]
      have hlen2 : (rest.filter fun p => p.1 ≠ k).length ≤ n := by
        have h1 := List.length_filter_le (fun p : Nat × List Bool => decide (p.1 ≠ k)) rest
        simp only [List.length_cons] at hlen
        omega
      refine List.Pairwise.cons ?_ (ih _ hlen2)
      intro y hy
      have hmem := firstBySeq_subset (rest.filter fun p => p.1 ≠ k).length _ (le_refl _) y hy
      have hfilt := List.of_mem_filter hmem
      simp only [decide_eq_true_eq] at hfilt
      exact fun h => hfilt (by omega)

theorem mem_iff_lookup (l : List (Nat × List Bool))
    (h : l.Pairwise (fun a b => a.1 ≠ b.1)) (x : Nat × List Bool) :
    x ∈ l ↔ lookupKey l x.1 = some x.2 := by
  induction l with
  | nil => simp [lookupKey_nil]
  | cons hd rest ih =>
    obtain ⟨k, v⟩ := hd
    have hhead := List.pairwise_cons.mp h
    by_cases hk : k = x.1
    · subst hk
      rw [lookupKey_cons_pos, Option.some_inj]
      constructor
      · intro hx
        rcases List.mem_cons.mp hx with heq | hx2
        · rw [heq]
        · exact absurd rfl (hhead.1 x hx2)
      · intro hv
        obtain ⟨x1, x2⟩ := x
        simp only at hv
        subst hv
        exact List.mem_cons_self _ _
    · rw [lookupKey_cons_neg _ _ _ _ (fun h2 => hk h2.symm)]
      rw [← ih hhead.2]
      constructor
      · intro hx
        rcases List.mem_cons.mp hx with heq | hx2
        · exfalso
          apply hk
          rw [heq]
        · exact hx2
      · exact fun hx => List.mem_cons_of_mem _ hx

theorem sorted_key_ext :
    ∀ (l1 l2 : List (Nat × List Bool)),
      l1.Pairwise (fun a b => a.1 < b.1) → l2.Pairwise (fun a b => a.1 < b.1) →
      (∀ x, x ∈ l1 ↔ x ∈ l2) → l1 = l2 := by
  intro l1
  induction l1 with
  | nil =>
    intro l2 _ _ hext
    cases l2 with
    | nil => rfl
    | cons b t => exact absurd ((hext b).mpr (List.mem_cons_self b t)) (by simp)
  | cons a t1 ih =>
    intro l2 h1 h2 hext
    cases l2 with
    | nil => exact absurd ((hext a).mp (List.mem_cons_self a t1)) (by simp)
    | cons b t2 =>
      have hh1 := List.pairwise_cons.mp h1
      have hh2 := List.pairwise_cons.mp h2
      have hab : a = b := by
        rcases List.mem_cons.mp ((hext a).mp (List.mem_cons_self a t1)) with h | h
        · exact h
        · exfalso
          have hba : b.1 < a.1 := hh2.1 a h
          rcases List.mem_cons.mp ((hext b).mpr (List.mem_cons_self b t2)) with h' | h'
          · rw [h'] at hba
            omega
          · have : a.1 < b.1 := hh1.1 b h'
            omega
      subst hab
      have htail : ∀ x, x ∈ t1 ↔ x ∈ t2 := by
        intro x
        constructor
        · intro hx
          rcases List.mem_cons.mp ((hext x).mp (List.mem_cons_of_mem a hx)) with heq | h
          · exact absurd (hh1.1 x hx) (by rw [heq]; omega)
          · exact h
        · intro hx
          rcases List.mem_cons.mp ((hext x).mpr (List.mem_cons_of_mem a hx)) with heq | h
          · exact absurd (hh2.1 x hx) (by rw [heq]; omega)
          · exact h
      rw [ih t2 hh1.2 hh2.2 htail]

/-- Claim C6: `AcsmaSocketReader::read(src)` (socket.rs lines 65-90)
accumulates only Data frames whose header source matches `src` into a
`BTreeMap` bucket keyed by sequence number — keeping the first payload
received per sequence — stops upon the first such frame carrying the `EOP`
flag, and returns the concatenation of the buckets in increasing `seq`
order, i.e. the order assigned by the sender regardless of arrival order.
Formally: `read` equals the specification-side pipeline `specRead` built
from list combinators — truncate the arrival list at the first EOP Data
frame from `src`, filter to Data frames from `src`, keep the first payload
per sequence number, sort by sequence number, and concatenate. -/
theorem c6_read_matches_reassembly_spec (src : Nat) (frames : List NonAckFrame) :
    read src frames = specRead src frames := by
  rw [read, specRead, readLoop_foldl src frames []]
  congr 1
  apply congrArg
  set pairs := framePairs src frames with hpairs
  set bucket := pairs.foldl (fun b p => bucketInsert b p.1 p.2) [] with hbucket
  set msorted := (firstBySeq pairs).mergeSort (fun a b => decide (a.1 ≤ b.1)) with hms
  have hb_pw : bucket.Pairwise (fun a b => a.1 < b.1) :=
    foldl_bucketInsert_pairwise pairs [] List.Pairwise.nil
  have hfbs_nodup : (firstBySeq pairs).Pairwise (fun a b => a.1 ≠ b.1) :=
    firstBySeq_nodup_keys pairs.length pairs (le_refl _)
  have hperm : msorted.Perm (firstBySeq pairs) := List.mergeSort_perm (firstBySeq pairs) _
  have hms_nodup : msorted.Pairwise (fun a b => a.1 ≠ b.1) :=
    (hperm.pairwise_iff fun h => Ne.symm h).mpr hfbs_nodup
  have hms_le : msorted.Pairwise (fun a b => decide (a.1 ≤ b.1) = true) := by
    rw [hms]
    exact List.sorted_mergeSort
      (by intro a b c hab hbc; simp only [decide_eq_true_eq] at hab hbc ⊢; omega)
      (by intro a b; simp only [Bool.or_eq_true, decide_eq_true_eq]; omega) (firstBySeq pairs)
  have hms_pw : msorted.Pairwise (fun a b => a.1 < b.1) := by
    refine (hms_le.and hms_nodup).imp ?_
    intro a b hh
    obtain ⟨hle, hne⟩ := hh
    simp only [decide_eq_true_eq] at hle
    omega
  have hext : ∀ x, x ∈ bucket ↔ x ∈ msorted := by
    intro x
    have hb_ne : bucket.Pairwise (fun a b => a.1 ≠ b.1) :=
      hb_pw.imp (by intro a b hh; omega)
    rw [mem_iff_lookup bucket hb_ne x, mem_iff_lookup msorted hms_nodup x]
    rw [hbucket, lookup_foldl pairs [] List.Pairwise.nil x.1]
    rw [lookupKey_nil]
    show lookupKey pairs x.1 = some x.2 ↔ lookupKey msorted x.1 = some x.2
    rw [← firstBySeq_lookup pairs.length pairs (le_refl _) x.1]
    constructor
    · intro hl
      have hxmem : x ∈ firstBySeq pairs := (mem_iff_lookup _ hfbs_nodup x).mpr hl
      exact (mem_iff_lookup msorted hms_nodup x).mp (hperm.mem_iff.mpr hxmem)
    · intro hl
      have hxmem : x ∈ msorted := (mem_iff_lookup msorted hms_nodup x).mpr hl
      exact (mem_iff_lookup _ hfbs_nodup x).mp (hperm.mem_iff.mp hxmem)
  exact sorted_key_ext bucket msorted hb_pw hms_pw hext

end Rathernet
